import Mathlib

/-!
# A shallow embedding of the `tuxdrive` watcher/reader core

This file models, in Lean, the Rust sources of the `tuxdrive` repository:
`src/forest.rs` (path forest and the directed DFS), `src/watcher.rs`
(the polling watcher), `src/reader.rs` (the read-command worker and the
permission codec), and `src/atomic.rs` (the id generator).

Modelling conventions:
* An absolute filesystem path is the list of its component names
  (`"/tmp/w"` is `["tmp", "w"]`, `"/"` is `[]`).  Rust's
  `Path::components()` additionally yields a leading `RootDir`
  component; where the source counts components we prepend a `"/"`
  marker to mirror that.
* The filesystem is an explicit, immutable snapshot (`Fs`): `stat`,
  `read_dir`, `open` and whole-file reads are fields returning
  `Except Errno`.  Rust's `Path::exists/is_dir/is_file` are derived
  from `stat` exactly as in `std` (any error makes `exists()` false).
* Fallible Rust code is modelled in the result type `R`: `ok`,
  `err` (a returned `TuxDriveError`), `panicked` (a Rust `assert!`
  or `unwrap` failure), and `fuelOut` (the traversals of `forest.rs`
  do not terminate for arbitrary visitors, so they take explicit fuel;
  `fuelOut` is never conflated with an error of the program).
* `HashMap<OsString, PathNode>` is modelled as an association list in
  which keys are unique (`insert` replaces the value of an existing
  key in place, otherwise appends); iteration order of a hash map is
  unspecified, so list order is one admissible order.
-/

/-- A path component (Rust `OsString`). -/
abbrev Comp := String

/-- An absolute path, as its list of components ("/" = `[]`). -/
abbrev FPath := List Comp

/-- POSIX errno categories distinguished by the sources. -/
inductive Errno where
  | enoent
  | eacces
  | eisdir
  | egeneric (n : Nat)
deriving DecidableEq, Repr

/-- The error enum of `src/error.rs` (the variants reachable from the
modelled code). `io` wraps a `std::io::Error` kind, `nix` a raw errno. -/
inductive TuxError where
  | notDirectory (p : FPath)
  | io (e : Errno)
  | nix (e : Errno)
deriving DecidableEq, Repr

/-- Outcome of running a piece of modelled Rust code: normal return,
returned error (`TuxDriveResult::Err`), Rust panic (failed `assert!` or
`unwrap`), or exhaustion of the explicit recursion fuel. -/
inductive R (α : Type) where
  | ok (a : α)
  | err (e : TuxError)
  | panicked
  | fuelOut
deriving Repr, DecidableEq

def R.bind {α β : Type} : R α → (α → R β) → R β
  | .ok a, f => f a
  | .err e, _ => .err e
  | .panicked, _ => .panicked
  | .fuelOut, _ => .fuelOut

instance : Monad R where
  pure := R.ok
  bind := R.bind

/-- What a path is on disk. -/
inductive FsKind where
  | file
  | dir
  | other
deriving DecidableEq, Repr

/-- The stat data used by the sources: file type, the full `st_mode`
word, and the two timestamps (seconds). -/
structure FsMeta where
  kind : FsKind
  mode : Nat
  mtime : Int
  ctime : Int
deriving DecidableEq, Repr

/-- An immutable snapshot of the filesystem. -/
structure Fs where
  stat : FPath → Except Errno FsMeta
  readDir : FPath → Except Errno (List Comp)
  openFile : FPath → Except Errno Unit
  readFile : FPath → Except Errno (List Nat)

namespace Fs

/-- Rust `Path::exists()`: `stat` succeeded. -/
def exists' (fs : Fs) (p : FPath) : Bool :=
  (fs.stat p).toOption.isSome

/-- Rust `Path::is_dir()`. -/
def isDirB (fs : Fs) (p : FPath) : Bool :=
  match fs.stat p with
  | .ok m => m.kind = FsKind.dir
  | .error _ => false

/-- Rust `Path::is_file()`. -/
def isFileB (fs : Fs) (p : FPath) : Bool :=
  match fs.stat p with
  | .ok m => m.kind = FsKind.file
  | .error _ => false

end Fs

/-- `PathNode<T>` of `src/forest.rs`: name (`None` only for the node of
the root directory `/`), children keyed by component name, payload, and
the `is_dir` flag. -/
inductive PathNode (T : Type) where
  | mk (name : Option Comp) (children : List (Comp × PathNode T)) (info : T) (isDir : Bool)

namespace PathNode

def name {T : Type} : PathNode T → Option Comp
  | .mk n _ _ _ => n

def children {T : Type} : PathNode T → List (Comp × PathNode T)
  | .mk _ c _ _ => c

def info {T : Type} : PathNode T → T
  | .mk _ _ i _ => i

def isDir {T : Type} : PathNode T → Bool
  | .mk _ _ _ d => d

end PathNode

/-- Association-list lookup (`HashMap::get`). -/
def alistLookup {T : Type} (k : Comp) : List (Comp × PathNode T) → Option (PathNode T)
  | [] => none
  | (k', v) :: rest => if k' = k then some v else alistLookup k rest

/-- Association-list insert (`HashMap::insert`): replaces the value of
an existing key, else appends. -/
def alistInsert {T : Type} (k : Comp) (v : PathNode T) :
    List (Comp × PathNode T) → List (Comp × PathNode T)
  | [] => [(k, v)]
  | (k', v') :: rest =>
      if k' = k then (k, v) :: rest else (k', v') :: alistInsert k v rest

/-- Association-list removal (`HashMap::remove`), returning whether the
key was present. -/
def alistRemove {T : Type} (k : Comp) :
    List (Comp × PathNode T) → List (Comp × PathNode T) × Bool
  | [] => ([], false)
  | (k', v') :: rest =>
      if k' = k then (rest, true)
      else
        let r := alistRemove k rest
        ((k', v') :: r.1, r.2)

/-- Replace the value stored at key `k` (models mutating through
`HashMap::get_mut`). No-op when the key is absent. -/
def alistUpdate {T : Type} (k : Comp) (v : PathNode T) :
    List (Comp × PathNode T) → List (Comp × PathNode T)
  | [] => []
  | (k', v') :: rest =>
      if k' = k then (k, v) :: rest else (k', v') :: alistUpdate k v rest

def alistKeys {T : Type} (l : List (Comp × PathNode T)) : List Comp :=
  l.map Prod.fst

namespace PathNode

/-- `PathNode::new`. -/
def new {T : Type} (name : Option Comp) (info : T) (isDir : Bool) : PathNode T :=
  .mk name [] info isDir

/-- `PathNode::add_node_rec` of `src/forest.rs`.  `none` models the
`assert!(!comps.is_empty())` panic.  Note that for a single remaining
component the source builds a *fresh* node (empty children) and
`insert`s it, replacing any existing node wholesale. -/
def addNodeRec {T : Type} [Inhabited T] :
    PathNode T → List Comp → T → Bool → Option (PathNode T)
  | _, [], _, _ => none
  | .mk nm ch i d, [c], info, isDir =>
      some (.mk nm (alistInsert c (PathNode.new (some c) info isDir) ch) i d)
  | .mk nm ch i d, c :: c' :: rest, info, isDir =>
      match alistLookup c ch with
      | some child =>
          (addNodeRec child (c' :: rest) info isDir).map fun child' =>
            .mk nm (alistUpdate c child' ch) i d
      | none =>
          (addNodeRec (PathNode.new (some c) default true) (c' :: rest) info isDir).map
            fun child' => .mk nm (alistInsert c child' ch) i d

/-- `PathNode::remove_node_rec` of `src/forest.rs`. `none` models the
`assert!(!comps.is_empty())` panic; otherwise returns the updated node
and whether a node was removed. -/
def removeNodeRec {T : Type} :
    PathNode T → List Comp → Option (PathNode T × Bool)
  | _, [] => none
  | .mk nm ch i d, [c] =>
      let r := alistRemove c ch
      some (.mk nm r.1 i d, r.2)
  | .mk nm ch i d, c :: c' :: rest =>
      match alistLookup c ch with
      | some child =>
          (removeNodeRec child (c' :: rest)).map fun r =>
            (.mk nm (alistUpdate c r.1 ch) i d, r.2)
      | none => some (.mk nm ch i d, false)

/-- The node reached by following `comps` through the children maps
(`[]` is the node itself). Specification-side addressing used to state
properties of `addNodeRec`/`removeNodeRec`. -/
def findNode {T : Type} : PathNode T → List Comp → Option (PathNode T)
  | n, [] => some n
  | n, c :: rest =>
      match alistLookup c n.children with
      | some child => findNode child rest
      | none => none

end PathNode

theorem PathNode.sizeOf_lt_of_mem_children {T : Type} [SizeOf T] {n : PathNode T}
    {x : Comp × PathNode T} (h : x ∈ n.children) : sizeOf x.2 < sizeOf n := by
  obtain ⟨nm, ch, i, d⟩ := n
  simp only [PathNode.children] at h
  have h1 : sizeOf x < sizeOf ch := List.sizeOf_lt_of_mem h
  obtain ⟨a, b⟩ := x
  simp only [Prod.mk.sizeOf_spec] at h1
  simp only [PathNode.mk.sizeOf_spec]
  omega

/-- All component paths stored in a node's subtree (`[]` = the node
itself). -/
def pathsOf {T : Type} (n : PathNode T) : List (List Comp) :=
  [] :: n.children.attach.flatMap
    (fun x => (pathsOf x.1.2).map (fun q => x.1.1 :: q))
termination_by sizeOf n
decreasing_by
  all_goals exact PathNode.sizeOf_lt_of_mem_children x.2

/-- Well-formedness of the mirrored `HashMap`s: at every node the child
keys are pairwise distinct. -/
def wfNode {T : Type} (n : PathNode T) : Bool :=
  (alistKeys n.children).Nodup ∧ n.children.attach.all (fun x => wfNode x.1.2)
termination_by sizeOf n
decreasing_by
  all_goals exact PathNode.sizeOf_lt_of_mem_children x.2

/-- `PathTree<T>` of `src/forest.rs`: the parent path of the root node
(`none` for the tree rooted at "/") and the root `PathNode`. -/
structure PathTree (T : Type) where
  parentPath : Option FPath
  node : PathNode T

namespace PathTree

/-- `PathTree::root_path`. `none` models the panic of
`assert!(self.parent_path.is_none() == self.node.name.is_none())` or of
the inner `unwrap`. -/
def rootPath {T : Type} (t : PathTree T) : Option FPath :=
  match t.parentPath, t.node.name with
  | some pp, some nm => some (pp ++ [nm])
  | none, none => some []
  | _, _ => none

/-- `PathTree::new` of `src/forest.rs`. Consults the real filesystem:
`assert!(root_path.exists() && root_path.is_dir())`; `none` models that
panic. -/
def new {T : Type} [Inhabited T] (fs : Fs) (rootPath : FPath) : Option (PathTree T) :=
  if fs.exists' rootPath && fs.isDirB rootPath then
    some { parentPath := if rootPath = [] then none else some rootPath.dropLast
           node := PathNode.new rootPath.getLast? default true }
  else
    none

/-- `PathTree::is_path_compatible`: `path.starts_with(root_path)`. -/
def isPathCompatible {T : Type} (t : PathTree T) (p : FPath) : Option Bool :=
  (t.rootPath).map fun rp => rp.isPrefixOf p

/-- `PathTree::strip_root`.  The source counts the components of the
root path *including* the leading `RootDir` component and keeps the
final component of the root itself:
`path.components().skip(root_path_comps_len - 1)`.  We mirror this by
prepending the `"/"` component.  `none` models the
`assert!(self.is_path_compatible(&path))` panic. -/
def stripRoot {T : Type} (t : PathTree T) (p : FPath) : Option (List Comp) :=
  match t.rootPath with
  | none => none
  | some rp =>
      if rp.isPrefixOf p then
        some (("/" :: p).drop (("/" :: rp).length - 1))
      else
        none

/-- `PathTree::add_path`. -/
def addPath {T : Type} [Inhabited T] (t : PathTree T) (p : FPath) (info : T)
    (isDir : Bool) : Option (PathTree T) :=
  match t.stripRoot p with
  | none => none
  | some comps =>
      (t.node.addNodeRec comps info isDir).map fun node' =>
        { t with node := node' }

/-- `PathTree::remove_path`. -/
def removePath {T : Type} (t : PathTree T) (p : FPath) : Option (PathTree T × Bool) :=
  match t.stripRoot p with
  | none => none
  | some comps =>
      (t.node.removeNodeRec comps).map fun r => ({ t with node := r.1 }, r.2)

end PathTree

/-- `PathForest<T>`: map from root path to tree, modelled as an
association list with unique keys. -/
structure PathForest (T : Type) where
  trees : List (FPath × PathTree T)

namespace PathForest

def empty {T : Type} : PathForest T := ⟨[]⟩

def lookupTree {T : Type} (f : PathForest T) (root : FPath) : Option (PathTree T) :=
  (f.trees.find? (fun kt => kt.1 = root)).map Prod.snd

def keys {T : Type} (f : PathForest T) : List FPath :=
  f.trees.map Prod.fst

/-- Replace the tree stored under `root` (models `HashMap::get_mut`). -/
def updateTree {T : Type} (f : PathForest T) (root : FPath) (t : PathTree T) :
    PathForest T :=
  ⟨f.trees.map fun kt => if kt.1 = root then (root, t) else kt⟩

/-- `PathForest::add_path` of `src/forest.rs`: reuse the tree when the
root is a key, else build a fresh tree with `PathTree::new` (which
consults the filesystem and may panic) and add into it.  `none` models
a Rust panic. -/
def addPath {T : Type} [Inhabited T] (fs : Fs) (f : PathForest T) (root p : FPath)
    (info : T) (isDir : Bool) : Option (PathForest T) :=
  match f.lookupTree root with
  | some t =>
      (t.addPath p info isDir).map fun t' => f.updateTree root t'
  | none =>
      match PathTree.new (T := T) fs root with
      | none => none
      | some newTree =>
          (newTree.addPath p info isDir).map fun t' => ⟨f.trees ++ [(root, t')]⟩

/-- `PathForest::remove_path`: `self.trees.get_mut(root).unwrap()`;
`none` models the `unwrap` (or inner assert) panic. -/
def removePath {T : Type} (f : PathForest T) (root p : FPath) :
    Option (PathForest T × Bool) :=
  match f.lookupTree root with
  | none => none
  | some t =>
      (t.removePath p).map fun r => (f.updateTree root r.1, r.2)

end PathForest

/-- The five directives of the directed DFS (`DfsFuncBehaviour` in
`src/forest.rs`). -/
inductive DfsFuncBehaviour where
  | cont
  | stop
  | delete
  | addAndContinue (ps : List FPath)
  | addAndStop (ps : List FPath)
deriving Repr

/-- `RecursiveBehaviour` of `src/forest.rs`. -/
inductive RecursiveBehaviour where
  | nothing
  | delete
deriving DecidableEq, Repr

/-- The view handed to a DFS visitor (`DfsMutInfo`): the children's
absolute paths, the payload, and `is_dir`.  The visitor returns the new
payload (Rust mutates through `&mut T`). -/
structure DfsMutInfo (T : Type) where
  childrenPaths : List FPath
  info : T
  isDir : Bool

/-- A DFS visitor: Rust
`FnMut(&Path, DfsMutInfo<T>) -> TuxDriveResult<DfsFuncBehaviour>`, with
the payload mutation and the events pushed on the channel made
explicit. -/
def Visitor (T E : Type) : Type :=
  FPath → DfsMutInfo T → Except TuxError (T × List E × DfsFuncBehaviour)

namespace PathNode

def withInfo {T : Type} : PathNode T → T → PathNode T
  | .mk nm ch _ d, i => .mk nm ch i d

def withChildren {T : Type} : PathNode T → List (Comp × PathNode T) → PathNode T
  | .mk nm _ i d, ch => .mk nm ch i d

/-- `get_dfs_mut_info`: the children's paths are rebuilt from the
*children's* `name` fields (`unwrap_or` the empty component, which
leaves the path unchanged when pushed). -/
def getDfsMutInfo {T : Type} (currPath : FPath) (n : PathNode T) : DfsMutInfo T :=
  { childrenPaths :=
      n.children.map fun kc =>
        match kc.2.name with
        | some nm => currPath ++ [nm]
        | none => currPath
    info := n.info
    isDir := n.isDir }

/-- The `add_new_paths` helper inside `PathNode::dfs_mut`: one child
per path, named by `path.file_name()`, with `is_dir` read from the
filesystem and a default payload; inserted (replacing a same-named
child) into the *current* children map.  `none` models the
`name.unwrap()` panic on a path with no final component. -/
def addNewPaths {T : Type} [Inhabited T] (fs : Fs) (n : PathNode T) :
    List FPath → Option (PathNode T)
  | [] => some n
  | p :: rest =>
      match p.getLast? with
      | none => none
      | some nm =>
          addNewPaths fs
            (n.withChildren
              (alistInsert nm (PathNode.new (some nm) default (fs.isDirB p)) n.children))
            rest

end PathNode

/-- The `recurse_downwards` helper of `PathNode::dfs_mut`: visit each
child with `visit` (the path is extended by the child's *name*, whose
presence is asserted), collect the children to delete and drop them
afterwards. -/
def dfsChildren {T E : Type}
    (visit : FPath → PathNode T → R (RecursiveBehaviour × PathNode T × List E)) :
    FPath → List (Comp × PathNode T) → R (List (Comp × PathNode T) × List E)
  | _, [] => .ok ([], [])
  | currPath, (k, c) :: rest =>
    match c.name with
    | none => .panicked
    | some nm =>
      match visit (currPath ++ [nm]) c with
      | .ok (rb, c', evs) =>
          match dfsChildren visit currPath rest with
          | .ok (rest', evs2) =>
              match rb with
              | .nothing => .ok ((k, c') :: rest', evs ++ evs2)
              | .delete => .ok (rest', evs ++ evs2)
          | .err e => .err e
          | .panicked => .panicked
          | .fuelOut => .fuelOut
      | .err e => .err e
      | .panicked => .panicked
      | .fuelOut => .fuelOut

/-- `PathNode::dfs_mut` of `src/forest.rs`.  Returns the
`RecursiveBehaviour` reported to the parent, the node as mutated by the
pass (the parent drops it on `delete`), and the events emitted in
program order.  The recursion is bounded by explicit fuel, spent one
unit per tree level. -/
def dfsMutNode {T E : Type} [Inhabited T] (fs : Fs) (func : Visitor T E) :
    Nat → FPath → PathNode T → R (RecursiveBehaviour × PathNode T × List E)
  | 0, _, _ => .fuelOut
  | fuel + 1, currPath, node =>
    match func currPath (node.getDfsMutInfo currPath) with
    | .error e => .err e
    | .ok (info', evs, behaviour) =>
      let node1 := node.withInfo info'
      match behaviour with
      | .cont =>
          match dfsChildren (dfsMutNode fs func fuel) currPath node1.children with
          | .ok (ch', evs2) => .ok (.nothing, node1.withChildren ch', evs ++ evs2)
          | .err e => .err e
          | .panicked => .panicked
          | .fuelOut => .fuelOut
      | .stop => .ok (.nothing, node1, evs)
      | .delete => .ok (.delete, node1, evs)
      | .addAndContinue ps =>
          match node1.addNewPaths fs ps with
          | none => .panicked
          | some node2 =>
              match dfsChildren (dfsMutNode fs func fuel) currPath node2.children with
              | .ok (ch', evs2) => .ok (.nothing, node2.withChildren ch', evs ++ evs2)
              | .err e => .err e
              | .panicked => .panicked
              | .fuelOut => .fuelOut
      | .addAndStop ps =>
          match node1.addNewPaths fs ps with
          | none => .panicked
          | some node2 => .ok (.nothing, node2, evs)

/-- `PathTree::dfs_mut`: start at the reconstructed root path. -/
def PathTree.dfsMut {T E : Type} [Inhabited T] (fs : Fs) (func : Visitor T E)
    (fuel : Nat) (t : PathTree T) : R (RecursiveBehaviour × PathTree T × List E) :=
  match t.rootPath with
  | none => .panicked
  | some rp =>
      match dfsMutNode fs func fuel rp t.node with
      | .ok (rb, n', evs) => .ok (rb, { t with node := n' }, evs)
      | .err e => .err e
      | .panicked => .panicked
      | .fuelOut => .fuelOut

/-- `PathForest::dfs_mut`: walk every tree, drop the trees whose root
reported `delete`. -/
def PathForest.dfsMut {T E : Type} [Inhabited T] (fs : Fs) (func : Visitor T E)
    (fuel : Nat) (f : PathForest T) : R (PathForest T × List E) :=
  let rec go : List (FPath × PathTree T) → R (List (FPath × PathTree T) × List E)
    | [] => .ok ([], [])
    | (k, t) :: rest =>
        match PathTree.dfsMut fs func fuel t with
        | .ok (rb, t', evs) =>
            match go rest with
            | .ok (rest', evs2) =>
                match rb with
                | .nothing => .ok ((k, t') :: rest', evs ++ evs2)
                | .delete => .ok (rest', evs ++ evs2)
            | .err e => .err e
            | .panicked => .panicked
            | .fuelOut => .fuelOut
        | .err e => .err e
        | .panicked => .panicked
        | .fuelOut => .fuelOut
  match go f.trees with
  | .ok (trees', evs) => .ok (⟨trees'⟩, evs)
  | .err e => .err e
  | .panicked => .panicked
  | .fuelOut => .fuelOut

/-- `ModTimeInfo` of `src/watcher.rs`: last observed mtime/ctime,
defaulting to zero. -/
structure ModTimeInfo where
  mtime : Int
  ctime : Int
deriving DecidableEq, Repr

instance : Inhabited ModTimeInfo := ⟨⟨0, 0⟩⟩

/-- `PathAction` of `src/watcher.rs`. -/
inductive PathAction where
  | nothing
  | delete
deriving DecidableEq, Repr

namespace ModTimeInfo

/-- `ModTimeInfo::update_times`: re-`stat` the path; `ENOENT`/`EACCES`
become `PathAction::Delete` (leaving the record untouched), any other
errno is returned as an error; on success both fields are overwritten
from the stat data. -/
def updateTimes (fs : Fs) (p : FPath) (self : ModTimeInfo) :
    Except TuxError (ModTimeInfo × PathAction) :=
  match fs.stat p with
  | .error e =>
      if e = Errno.enoent ∨ e = Errno.eacces then .ok (self, .delete)
      else .error (.nix e)
  | .ok m => .ok ({ mtime := m.mtime, ctime := m.ctime }, .nothing)

def modifiedSince (self since : ModTimeInfo) : Bool := self.mtime > since.mtime

def changedSince (self since : ModTimeInfo) : Bool := self.ctime > since.ctime

def updatedSince (self since : ModTimeInfo) : Bool :=
  self.modifiedSince since || self.changedSince since

end ModTimeInfo

/-- `WatchEventKind` of `src/watcher.rs`. -/
inductive WatchEventKind where
  | create
  | delete
  | written
  | chmod
deriving DecidableEq, Repr

/-- `WatchEvent` of `src/watcher.rs`.  Exactly as in the source, it
carries a path and a kind — there is no id field. -/
structure WatchEvent where
  path : FPath
  kind : WatchEventKind
deriving DecidableEq, Repr

/-- The visitor of `Watcher::update_times` (the initial-snapshot pass):
refresh payloads, prune vanished paths, recurse into a directory only
when its record changed; it never emits an event. -/
def updateTimesVisitor (fs : Fs) : Visitor ModTimeInfo WatchEvent := fun path dfsInfo =>
  if ¬ fs.exists' path then .ok (dfsInfo.info, [], .delete)
  else
    let oldTimeInfo := dfsInfo.info
    match dfsInfo.info.updateTimes fs path with
    | .error e => .error e
    | .ok (info', .delete) => .ok (info', [], .delete)
    | .ok (info', .nothing) =>
        .ok (info', [],
          if info'.updatedSince oldTimeInfo && dfsInfo.isDir then .cont
          else .stop)

/-- The `handle_dir` helper of `poll_tree`: enumerate the directory; a
`NotFound`/`PermissionDenied` enumerator prunes the node (without any
event), other enumerator errors propagate; an entry that is a regular
file or directory and is not already a child yields a `Create` event
and is collected in `new_paths`.  (The source additionally skips
transient per-entry `NotFound`/`PermissionDenied` errors during the
iteration; a static snapshot has no such errors, so they are not
modelled.) -/
def handleDir (fs : Fs) (path : FPath) (dfsInfo : DfsMutInfo ModTimeInfo)
    (info' : ModTimeInfo) :
    Except TuxError (ModTimeInfo × List WatchEvent × DfsFuncBehaviour) :=
  match fs.readDir path with
  | .error e =>
      if e = Errno.enoent ∨ e = Errno.eacces then .ok (info', [], .delete)
      else .error (.io e)
  | .ok entries =>
      let rec go : List Comp → Except TuxError (List FPath × List WatchEvent)
        | [] => .ok ([], [])
        | name :: rest =>
            let entryPath := path ++ [name]
            if entryPath ∈ dfsInfo.childrenPaths then go rest
            else if ¬ fs.isDirB entryPath ∧ ¬ fs.isFileB entryPath then go rest
            else
              match go rest with
              | .ok (ps, evs) =>
                  .ok (entryPath :: ps, WatchEvent.mk entryPath .create :: evs)
              | .error e => .error e
      match go entries with
      | .error e => .error e
      | .ok (newPaths, evs) =>
          if newPaths ≠ [] then .ok (info', evs, .addAndContinue newPaths)
          else .ok (info', evs, .cont)

/-- The `handle_file` helper of `poll_tree`: `Written` when the fresh
mtime is strictly greater than the prior snapshot's, else `Chmod` when
the fresh ctime is strictly greater, else nothing; always `Stop`. -/
def handleFile (path : FPath) (info' oldTimeInfo : ModTimeInfo) :
    Except TuxError (ModTimeInfo × List WatchEvent × DfsFuncBehaviour) :=
  if info'.modifiedSince oldTimeInfo then
    .ok (info', [WatchEvent.mk path .written], .stop)
  else if info'.changedSince oldTimeInfo then
    .ok (info', [WatchEvent.mk path .chmod], .stop)
  else
    .ok (info', [], .stop)

/-- The per-node visitor of `poll_tree` in `src/watcher.rs`. -/
def pollVisitor (fs : Fs) : Visitor ModTimeInfo WatchEvent := fun path dfsInfo =>
  if ¬ fs.exists' path then
    .ok (dfsInfo.info, [WatchEvent.mk path .delete], .delete)
  else if ¬ fs.isDirB path ∧ ¬ fs.isFileB path then
    .ok (dfsInfo.info, [WatchEvent.mk path .delete], .delete)
  else if fs.isDirB path ≠ dfsInfo.isDir then
    .ok (dfsInfo.info, [WatchEvent.mk path .delete], .delete)
  else
    let oldTimeInfo := dfsInfo.info
    match dfsInfo.info.updateTimes fs path with
    | .error e => .error e
    | .ok (info', .delete) =>
        .ok (info', [WatchEvent.mk path .delete], .delete)
    | .ok (info', .nothing) =>
        if dfsInfo.isDir then handleDir fs path dfsInfo info'
        else handleFile path info' oldTimeInfo

/-- `poll_tree`: one tree walk with the poll visitor.  The
`RecursiveBehaviour` of the tree root is *discarded* by the source
(`tree.dfs_mut(...)?; Ok(())`), so the tree always survives. -/
def pollTree (fs : Fs) (fuel : Nat) (t : PathTree ModTimeInfo) :
    R (PathTree ModTimeInfo × List WatchEvent) :=
  match PathTree.dfsMut fs (pollVisitor fs) fuel t with
  | .ok (_, t', evs) => .ok (t', evs)
  | .err e => .err e
  | .panicked => .panicked
  | .fuelOut => .fuelOut

/-- `Watcher::poll`: poll every tree (trees are walked independently;
this model serialises them in map order, one admissible schedule). -/
def pollForest (fs : Fs) (fuel : Nat) (f : PathForest ModTimeInfo) :
    R (PathForest ModTimeInfo × List WatchEvent) :=
  let rec go : List (FPath × PathTree ModTimeInfo) →
      R (List (FPath × PathTree ModTimeInfo) × List WatchEvent)
    | [] => .ok ([], [])
    | (k, t) :: rest =>
        match pollTree fs fuel t with
        | .ok (t', evs) =>
            match go rest with
            | .ok (rest', evs2) => .ok ((k, t') :: rest', evs ++ evs2)
            | .err e => .err e
            | .panicked => .panicked
            | .fuelOut => .fuelOut
        | .err e => .err e
        | .panicked => .panicked
        | .fuelOut => .fuelOut
  match go f.trees with
  | .ok (trees', evs) => .ok (⟨trees'⟩, evs)
  | .err e => .err e
  | .panicked => .panicked
  | .fuelOut => .fuelOut

/-- `Watcher::start_polling`: loop `poll(); sleep(P)` forever; it only
returns on error.  The loop is given fuel; running out of fuel models
"still looping". -/
def startPolling (fs : Fs) (dfsFuel : Nat) :
    Nat → PathForest ModTimeInfo → R (PathForest ModTimeInfo × List WatchEvent)
  | 0, _ => .fuelOut
  | n + 1, f =>
      match pollForest fs dfsFuel f with
      | .ok (f', evs) =>
          match startPolling fs dfsFuel n f' with
          | .ok (f'', evs2) => .ok (f'', evs ++ evs2)
          | .err e => .err e
          | .panicked => .panicked
          | .fuelOut => .fuelOut
      | .err e => .err e
      | .panicked => .panicked
      | .fuelOut => .fuelOut

/-- `DirectoryAddOptions` of `src/forest.rs` (constructed with both
tolerations on; the source never reads the fields). -/
structure DirectoryAddOptions where
  ignoreNotFound : Bool
  ignoreNoAccess : Bool
deriving Repr

def DirectoryAddOptions.new : DirectoryAddOptions := ⟨true, true⟩

/-- The entry classification shared by `add_dir_non_recursively` and
`add_dir_rec_intern`: `entry.file_type()` with
`NotFound`/`PermissionDenied` skipping the entry, other errors
propagating, and non-file non-dir entries skipped. `ok none` = skip. -/
def entryIsDir (fs : Fs) (p : FPath) : Except TuxError (Option Bool) :=
  match fs.stat p with
  | .error e =>
      if e = Errno.enoent ∨ e = Errno.eacces then .ok none
      else .error (.io e)
  | .ok m =>
      if m.kind ≠ FsKind.dir ∧ m.kind ≠ FsKind.file then .ok none
      else .ok (some (m.kind = FsKind.dir))

/-- The entry loop of `add_dir_rec_intern`, parameterised by the
recursive call used to descend into a subdirectory. -/
def addDirEntriesRec (fs : Fs)
    (recurse : PathForest ModTimeInfo → FPath →
      R (PathForest ModTimeInfo × RecursiveBehaviour))
    (rootPath dirPath : FPath) :
    PathForest ModTimeInfo → List Comp → R (PathForest ModTimeInfo × RecursiveBehaviour)
  | forest, [] => .ok (forest, .nothing)
  | forest, name :: rest =>
      let path := dirPath ++ [name]
      match entryIsDir fs path with
      | .error e => .err e
      | .ok none => addDirEntriesRec fs recurse rootPath dirPath forest rest
      | .ok (some isDir) =>
          match PathForest.addPath fs forest rootPath path default isDir with
          | none => .panicked
          | some f1 =>
              if isDir then
                match recurse f1 path with
                | .ok (f2, .nothing) =>
                    addDirEntriesRec fs recurse rootPath dirPath f2 rest
                | .ok (f2, .delete) =>
                    match f2.removePath rootPath path with
                    | none => .panicked
                    | some (f3, _) =>
                        addDirEntriesRec fs recurse rootPath dirPath f3 rest
                | .err e => .err e
                | .panicked => .panicked
                | .fuelOut => .fuelOut
              else addDirEntriesRec fs recurse rootPath dirPath f1 rest

/-- `PathForest::add_dir_rec_intern` of `src/forest.rs`, bounded by
fuel (one unit per directory level). -/
def addDirRecIntern (fs : Fs) :
    Nat → PathForest ModTimeInfo → FPath → FPath → DirectoryAddOptions →
    R (PathForest ModTimeInfo × RecursiveBehaviour)
  | 0, _, _, _, _ => .fuelOut
  | fuel + 1, forest, rootPath, dirPath, options =>
      match fs.readDir dirPath with
      | .error e =>
          if e = Errno.enoent ∨ e = Errno.eacces then .ok (forest, .delete)
          else .err (.io e)
      | .ok entries =>
          addDirEntriesRec fs
            (fun f p => addDirRecIntern fs fuel f rootPath p options)
            rootPath dirPath forest entries

/-- `PathForest::add_dir_recursively`: assert the path is a directory,
insert it as (root, root), then walk the disk subtree; a `delete`
outcome at the top removes the root path again. -/
def addDirRecursively (fs : Fs) (fuel : Nat) (forest : PathForest ModTimeInfo)
    (dirPath : FPath) (options : DirectoryAddOptions) : R (PathForest ModTimeInfo) :=
  if ¬ fs.isDirB dirPath then .panicked
  else
    match PathForest.addPath fs forest dirPath dirPath default true with
    | none => .panicked
    | some f1 =>
        match addDirRecIntern fs fuel f1 dirPath dirPath options with
        | .ok (f2, .nothing) => .ok f2
        | .ok (f2, .delete) =>
            match f2.removePath dirPath dirPath with
            | none => .panicked
            | some (f3, _) => .ok f3
        | .err e => .err e
        | .panicked => .panicked
        | .fuelOut => .fuelOut

/-- `PathForest::add_dir_non_recursively`: only the immediate children
of `dir` are enumerated; the root itself is only inserted when the
enumeration opened successfully. -/
def addDirNonRecursively (fs : Fs) (forest : PathForest ModTimeInfo)
    (dirPath : FPath) : R (PathForest ModTimeInfo) :=
  if ¬ fs.isDirB dirPath then .panicked
  else
    match fs.readDir dirPath with
    | .error e =>
        if e = Errno.enoent ∨ e = Errno.eacces then .ok forest
        else .err (.io e)
    | .ok entries =>
        match PathForest.addPath fs forest dirPath dirPath default true with
        | none => .panicked
        | some f1 =>
            let rec go (f : PathForest ModTimeInfo) :
                List Comp → R (PathForest ModTimeInfo)
              | [] => .ok f
              | name :: rest =>
                  let path := dirPath ++ [name]
                  match entryIsDir fs path with
                  | .error e => .err e
                  | .ok none => go f rest
                  | .ok (some isDir) =>
                      match PathForest.addPath fs f dirPath path default isDir with
                      | none => .panicked
                      | some f2 => go f2 rest
            go f1 entries

/-- `Watcher::update_times`: one forest pass with the silent
initial-snapshot visitor. -/
def watcherUpdateTimes (fs : Fs) (fuel : Nat) (f : PathForest ModTimeInfo) :
    R (PathForest ModTimeInfo × List WatchEvent) :=
  PathForest.dfsMut fs (updateTimesVisitor fs) fuel f

/-- `Watcher::add_directory`: `NotDirectory` for a non-directory path,
then populate the forest per `recursive`, then run `update_times`.
The returned event list is everything sent during the call (the
`update_times` pass). -/
def addDirectory (fs : Fs) (fuel : Nat) (f : PathForest ModTimeInfo)
    (path : FPath) (recursive : Bool) :
    R (PathForest ModTimeInfo × List WatchEvent) :=
  if ¬ fs.isDirB path then .err (.notDirectory path)
  else
    match (if recursive then addDirRecursively fs fuel f path DirectoryAddOptions.new
           else addDirNonRecursively fs f path) with
    | .ok f1 => watcherUpdateTimes fs fuel f1
    | .err e => .err e
    | .panicked => .panicked
    | .fuelOut => .fuelOut

/-- `NormalPermission` of `src/reader.rs`. -/
structure NormalPermission where
  read : Bool
  write : Bool
  execute : Bool
deriving DecidableEq, Repr

/-- `impl From<u8> for NormalPermission`:
`assert!((perm & 0xF8) == 0)` then test the three low bits.  `none`
models the assertion panic. -/
def NormalPermission.fromU8 (perm : Nat) : Option NormalPermission :=
  if perm &&& 0xF8 = 0 then
    some { read := 0o4 &&& perm ≠ 0
           write := 0o2 &&& perm ≠ 0
           execute := 0o1 &&& perm ≠ 0 }
  else none

/-- `SpecialPermission` of `src/reader.rs`. -/
structure SpecialPermission where
  suid : Bool
  sgid : Bool
  sticky : Bool
deriving DecidableEq, Repr

/-- `impl From<u8> for SpecialPermission`. -/
def SpecialPermission.fromU8 (perm : Nat) : Option SpecialPermission :=
  if perm &&& 0xF8 = 0 then
    some { suid := 0o4 &&& perm ≠ 0
           sgid := 0o2 &&& perm ≠ 0
           sticky := 0o1 &&& perm ≠ 0 }
  else none

/-- `FilePermission` of `src/reader.rs`. -/
structure FilePermission where
  user : NormalPermission
  group : NormalPermission
  other : NormalPermission
  spec : SpecialPermission
deriving DecidableEq, Repr

/-- `impl From<u16> for FilePermission`:
`assert!((perm & 0xF000) == 0)` then split the word into the four
3-bit groups. `none` models an assertion panic (either the top-level
one or one inside the `u8` conversions). -/
def FilePermission.fromU16 (perm : Nat) : Option FilePermission :=
  if perm &&& 0xF000 = 0 then
    let specBits := (perm &&& 0o7000) >>> 9
    let userBits := (perm &&& 0o700) >>> 6
    let groupBits := (perm &&& 0o70) >>> 3
    let otherBits := perm &&& 0o7
    match NormalPermission.fromU8 userBits, NormalPermission.fromU8 groupBits,
        NormalPermission.fromU8 otherBits, SpecialPermission.fromU8 specBits with
    | some user, some group, some other, some spec =>
        some { user := user, group := group, other := other, spec := spec }
    | _, _, _, _ => none
  else none

/-- Modelled from the spec: the informal inverse of the permission
decomposition ("high 3 bits → suid/sgid/sticky; next three triples →
user/group/other × read/write/execute").  The source has no
re-composition; this definition exists only to state the round-trip
property. -/
def NormalPermission.compose (p : NormalPermission) : Nat :=
  (if p.read then 4 else 0) + (if p.write then 2 else 0) + (if p.execute then 1 else 0)

/-- Modelled from the spec: inverse of the special-bit decomposition. -/
def SpecialPermission.compose (p : SpecialPermission) : Nat :=
  (if p.suid then 4 else 0) + (if p.sgid then 2 else 0) + (if p.sticky then 1 else 0)

/-- Modelled from the spec: re-compose a 12-bit mode word from the
decomposed record. -/
def FilePermission.compose (p : FilePermission) : Nat :=
  p.spec.compose * 512 + p.user.compose * 64 + p.group.compose * 8 + p.other.compose

/-- `ReadCommandKind` of `src/reader.rs`. -/
inductive ReadCommandKind where
  | data
  | permission
deriving DecidableEq, Repr

/-- `ReadCommand` of `src/reader.rs`. -/
structure ReadCommand where
  path : FPath
  kind : ReadCommandKind
  eventId : Nat
deriving DecidableEq, Repr

/-- `ReadDataContent` of `src/reader.rs`. -/
inductive ReadDataContent where
  | data (bytes : List Nat)
  | permission (p : FilePermission)
  | delete
deriving DecidableEq, Repr

/-- `ReadData` of `src/reader.rs`. -/
structure ReadData where
  content : ReadDataContent
  eventId : Nat
deriving DecidableEq, Repr

/-- `stat_deletable_file`: `ENOENT`/`EACCES` become `Ok(None)`
("deleted"), other errnos propagate as `NixError`. -/
def statDeletableFile (fs : Fs) (p : FPath) : R (Option FsMeta) :=
  match fs.stat p with
  | .ok m => .ok (some m)
  | .error e =>
      if e = Errno.enoent ∨ e = Errno.eacces then .ok none
      else .err (.nix e)

/-- `read_deletable_file`: `open`, `stat` for the size, then read the
whole contents; `ENOENT`/`EACCES`/`EISDIR` at the open or read (and the
deletable `stat`) yield `Ok(None)`, other errnos propagate.  (The
1024-byte chunk loop of the source is collapsed into one whole-file
read with the same error handling.) -/
def readDeletableFile (fs : Fs) (p : FPath) : R (Option (List Nat)) :=
  match fs.openFile p with
  | .error e =>
      if e = Errno.enoent ∨ e = Errno.eacces ∨ e = Errno.eisdir then .ok none
      else .err (.nix e)
  | .ok () =>
      match statDeletableFile fs p with
      | .ok none => .ok none
      | .err e => .err e
      | .panicked => .panicked
      | .fuelOut => .fuelOut
      | .ok (some _) =>
          match fs.readFile p with
          | .error e =>
              if e = Errno.enoent ∨ e = Errno.eacces ∨ e = Errno.eisdir then .ok none
              else .err (.nix e)
          | .ok bytes => .ok (some bytes)

/-- `ReadCommand::process` of `src/reader.rs`. -/
def ReadCommand.process (fs : Fs) (self : ReadCommand) : R ReadData :=
  match self.kind with
  | .data =>
      match readDeletableFile fs self.path with
      | .ok (some bytes) => .ok ⟨.data bytes, self.eventId⟩
      | .ok none => .ok ⟨.delete, self.eventId⟩
      | .err e => .err e
      | .panicked => .panicked
      | .fuelOut => .fuelOut
  | .permission =>
      match statDeletableFile fs self.path with
      | .ok (some st) =>
          let permBits := st.mode &&& 0o7777
          match FilePermission.fromU16 permBits with
          | some p => .ok ⟨.permission p, self.eventId⟩
          | none => .panicked
      | .ok none => .ok ⟨.delete, self.eventId⟩
      | .err e => .err e
      | .panicked => .panicked
      | .fuelOut => .fuelOut

/-- `AtomicIdGenerator` of `src/atomic.rs`: the counter starts at 1;
`next_id` is `fetch_add(1, SeqCst)` on an `AtomicU32`, returning the
old value and storing the 32-bit wrap of its successor. -/
def nextId (state : Nat) : Nat × Nat :=
  (state, (state + 1) % 2 ^ 32)

/-- The generator state before the `k`-th call of `next_id` (the
counter of a fresh `AtomicIdGenerator::new()` is 1). -/
def idGenState : Nat → Nat
  | 0 => 1
  | k + 1 => (nextId (idGenState k)).2

/-- The id handed out by the `k`-th call of `next_id` (0-based). -/
def emittedId (k : Nat) : Nat := (nextId (idGenState k)).1

/-! ## Concrete instances used to exercise the model -/

/-- A tiny filesystem: directory `/w` (times 1/1) containing one
regular file `/w/a` (times 5/5, mode `0o644`); everything else is
absent. -/
def fsW : Fs :=
  { stat := fun p =>
      if p = ["w"] then .ok ⟨.dir, 0o40755, 1, 1⟩
      else if p = ["w", "a"] then .ok ⟨.file, 0o100644, 5, 5⟩
      else .error .enoent
    readDir := fun p => if p = ["w"] then .ok ["a"] else .error .enoent
    openFile := fun _ => .error .enoent
    readFile := fun _ => .error .enoent }

/-- A filesystem with a directory `/d` whose enumeration is denied:
`stat` succeeds but `read_dir` fails with `EACCES`. -/
def fsC6 : Fs :=
  { stat := fun p => if p = ["d"] then .ok ⟨.dir, 0o40700, 7, 7⟩ else .error .enoent
    readDir := fun _ => .error .eacces
    openFile := fun _ => .error .enoent
    readFile := fun _ => .error .enoent }

/-- Like `fsC6` but the enumeration fails with an unclassified errno. -/
def fsC6b : Fs :=
  { stat := fun p => if p = ["d"] then .ok ⟨.dir, 0o40700, 7, 7⟩ else .error .enoent
    readDir := fun _ => .error (.egeneric 5)
    openFile := fun _ => .error (.egeneric 5)
    readFile := fun _ => .error (.egeneric 5) }

/-- A filesystem on which every `stat` fails with an unclassified
errno. -/
def fsErr : Fs :=
  { stat := fun _ => .error (.egeneric 5)
    readDir := fun _ => .error (.egeneric 5)
    openFile := fun _ => .error (.egeneric 5)
    readFile := fun _ => .error (.egeneric 5) }

/-- A node `r` with one child `a` that itself has one child `b`. -/
def nodeC4 : PathNode Nat :=
  .mk (some "r")
    [("a", .mk (some "a") [("b", .mk (some "b") [] 3 false)] 2 true)] 1 true

/-- A visitor that records every path it is called on and asks to add
the new path `/w/a` below the root `/w`. -/
def func5 : Visitor Nat FPath := fun p _i =>
  if p = ["w"] then .ok (0, [p], .addAndContinue [["w", "a"]])
  else .ok (0, [p], .stop)

/-- A childless root node for `/w`. -/
def node5 : PathNode Nat := .mk (some "w") [] 0 true

/-- The forest state produced by `addDirectory fsW 10 ∅ ["w"] true`:
the initial `update_times` pass has already pruned the spurious
self-named child created by `add_path(root, root)`, leaving the root
node childless. -/
def forestAfterAddW : PathForest ModTimeInfo :=
  ⟨[(["w"], { parentPath := some [], node := .mk (some "w") [] ⟨1, 1⟩ true })]⟩

/-- The forest state after the first poll: `/w/a` has been
re-discovered and its timestamps captured. -/
def forestAfterPollW : PathForest ModTimeInfo :=
  ⟨[(["w"],
    { parentPath := some []
      node := .mk (some "w") [("a", .mk (some "a") [] ⟨5, 5⟩ false)] ⟨1, 1⟩ true })]⟩

/-- A watcher tree for the root `/d` (as `PathTree::new` would build
it before any children are added). -/
def tree6 : PathTree ModTimeInfo :=
  { parentPath := some [], node := .mk (some "d") [] ⟨0, 0⟩ true }

/-- A forest holding only `tree6`. -/
def forest6 : PathForest ModTimeInfo := ⟨[(["d"], tree6)]⟩

/-- A tree for root `/r` as the source's `add_path` arithmetic lays it
out: the logical content hangs below a child that repeats the root's
own name. -/
def treeC8 : PathTree Nat :=
  { parentPath := some []
    node := .mk (some "r")
      [("r", .mk (some "r") [("a", .mk (some "a") [] 3 false)] 2 true)] 1 true }

/-- A forest holding only `treeC8`. -/
def forestC8 : PathForest Nat := ⟨[(["r"], treeC8)]⟩


/-! ## Association-list lemmas -/

theorem alistLookup_eq_none_iff {T : Type} {k : Comp} {l : List (Comp × PathNode T)} :
    alistLookup k l = none ↔ k ∉ alistKeys l := by
  induction l with
  | nil => simp [alistLookup, alistKeys]
  | cons hd tl ih =>
      obtain ⟨k', v'⟩ := hd
      by_cases h : k' = k
      · subst h
        simp [alistLookup, alistKeys]
      · simp only [alistLookup, if_neg h, alistKeys, List.map_cons, List.mem_cons]
        simp only [alistKeys] at ih
        rw [ih]
        have hk : ¬ k = k' := fun hc => h hc.symm
        tauto

theorem alistLookup_mem {T : Type} {k : Comp} {l : List (Comp × PathNode T)}
    {v : PathNode T} (h : alistLookup k l = some v) : (k, v) ∈ l := by
  induction l with
  | nil => simp [alistLookup] at h
  | cons hd tl ih =>
      obtain ⟨k', v'⟩ := hd
      by_cases hk : k' = k
      · subst hk
        simp [alistLookup] at h
        subst h
        exact List.mem_cons_self _ _
      · simp [alistLookup, hk] at h
        exact List.mem_cons_of_mem _ (ih h)

theorem mem_iff_alistLookup_of_nodup {T : Type} {k : Comp} {l : List (Comp × PathNode T)}
    {v : PathNode T} (hnd : (alistKeys l).Nodup) :
    (k, v) ∈ l ↔ alistLookup k l = some v := by
  induction l with
  | nil => simp [alistLookup]
  | cons hd tl ih =>
      obtain ⟨k', v'⟩ := hd
      simp only [alistKeys, List.map_cons, List.nodup_cons] at hnd
      by_cases hk : k' = k
      · subst hk
        constructor
        · intro hmem
          rcases List.mem_cons.mp hmem with h | h
          · injection h with h1 h2
            subst h2
            simp [alistLookup]
          · exact absurd (List.mem_map.mpr ⟨(k', v), h, rfl⟩) hnd.1
        · intro h
          simp [alistLookup] at h
          subst h
          exact List.mem_cons_self _ _
      · simp only [alistLookup, if_neg hk, List.mem_cons, Prod.mk.injEq]
        rw [ih hnd.2]
        constructor
        · rintro (⟨h1, _⟩ | h)
          · exact absurd h1.symm hk
          · exact h
        · exact Or.inr

theorem alistLookup_insert_self {T : Type} (k : Comp) (v : PathNode T)
    (l : List (Comp × PathNode T)) : alistLookup k (alistInsert k v l) = some v := by
  induction l with
  | nil => simp [alistInsert, alistLookup]
  | cons hd tl ih =>
      obtain ⟨k', v'⟩ := hd
      by_cases h : k' = k
      · simp [alistInsert, alistLookup, h]
      · simp [alistInsert, alistLookup, h, ih]

theorem alistLookup_insert_ne {T : Type} {k k' : Comp} (v : PathNode T)
    (l : List (Comp × PathNode T)) (h : k' ≠ k) :
    alistLookup k' (alistInsert k v l) = alistLookup k' l := by
  induction l with
  | nil => simp [alistInsert, alistLookup, Ne.symm h]
  | cons hd tl ih =>
      obtain ⟨k'', v''⟩ := hd
      by_cases h2 : k'' = k
      · subst h2
        simp [alistInsert, alistLookup, Ne.symm h]
      · by_cases h3 : k'' = k'
        · simp [alistInsert, alistLookup, h2, h3, h]
        · simp [alistInsert, alistLookup, h2, h3, h, ih]

theorem alistLookup_update_self {T : Type} {k : Comp} {v0 : PathNode T} (v : PathNode T)
    {l : List (Comp × PathNode T)} (h : alistLookup k l = some v0) :
    alistLookup k (alistUpdate k v l) = some v := by
  induction l with
  | nil => simp [alistLookup] at h
  | cons hd tl ih =>
      obtain ⟨k', v'⟩ := hd
      by_cases h2 : k' = k
      · subst h2
        simp [alistUpdate, alistLookup]
      · simp [alistLookup, h2] at h
        simp [alistUpdate, alistLookup, h2, ih h]

theorem alistLookup_update_ne {T : Type} {k k' : Comp} (v : PathNode T)
    (l : List (Comp × PathNode T)) (h : k' ≠ k) :
    alistLookup k' (alistUpdate k v l) = alistLookup k' l := by
  induction l with
  | nil => simp [alistUpdate]
  | cons hd tl ih =>
      obtain ⟨k'', v''⟩ := hd
      by_cases h2 : k'' = k
      · subst h2
        simp [alistUpdate, alistLookup, Ne.symm h, h]
      · by_cases h3 : k'' = k'
        · simp [alistUpdate, alistLookup, h2, h3, h]
        · simp [alistUpdate, alistLookup, h2, h3, h, ih]

theorem alistUpdate_self {T : Type} {k : Comp} {v : PathNode T}
    {l : List (Comp × PathNode T)} (h : alistLookup k l = some v) :
    alistUpdate k v l = l := by
  induction l with
  | nil => rfl
  | cons hd tl ih =>
      obtain ⟨k', v'⟩ := hd
      by_cases h2 : k' = k
      · subst h2
        simp [alistLookup] at h
        simp [alistUpdate, h]
      · simp [alistLookup, h2] at h
        simp [alistUpdate, h2, ih h]

theorem alistRemove_snd {T : Type} (k : Comp) (l : List (Comp × PathNode T)) :
    (alistRemove k l).2 = (alistLookup k l).isSome := by
  induction l with
  | nil => simp [alistRemove, alistLookup]
  | cons hd tl ih =>
      obtain ⟨k', v'⟩ := hd
      by_cases h : k' = k
      · simp [alistRemove, alistLookup, h]
      · simp [alistRemove, alistLookup, h, ih]

theorem alistRemove_of_none {T : Type} {k : Comp} {l : List (Comp × PathNode T)}
    (h : alistLookup k l = none) : (alistRemove k l).1 = l := by
  induction l with
  | nil => rfl
  | cons hd tl ih =>
      obtain ⟨k', v'⟩ := hd
      by_cases h2 : k' = k
      · simp [alistLookup, h2] at h
      · simp [alistLookup, h2] at h
        simp [alistRemove, h2, ih h]

theorem alistKeys_update {T : Type} (k : Comp) (v : PathNode T)
    (l : List (Comp × PathNode T)) : alistKeys (alistUpdate k v l) = alistKeys l := by
  induction l with
  | nil => rfl
  | cons hd tl ih =>
      obtain ⟨k', v'⟩ := hd
      by_cases h : k' = k
      · subst h
        simp [alistUpdate, alistKeys]
      · simp only [alistUpdate, if_neg h, alistKeys, List.map_cons] at ih ⊢
        rw [ih]

theorem alistKeys_insert_mem {T : Type} {k : Comp} (v : PathNode T)
    {l : List (Comp × PathNode T)} (h : k ∈ alistKeys l) :
    alistKeys (alistInsert k v l) = alistKeys l := by
  induction l with
  | nil => simp [alistKeys] at h
  | cons hd tl ih =>
      obtain ⟨k', v'⟩ := hd
      by_cases h2 : k' = k
      · subst h2
        simp [alistInsert, alistKeys]
      · simp only [alistKeys, List.map_cons, List.mem_cons] at h
        rcases h with h | h
        · exact absurd h.symm h2
        · have h4 := ih h
          simp only [alistKeys] at h4
          simp only [alistInsert, if_neg h2, alistKeys, List.map_cons, h4]

theorem alistKeys_insert_not_mem {T : Type} {k : Comp} (v : PathNode T)
    {l : List (Comp × PathNode T)} (h : k ∉ alistKeys l) :
    alistKeys (alistInsert k v l) = alistKeys l ++ [k] := by
  induction l with
  | nil => simp [alistInsert, alistKeys]
  | cons hd tl ih =>
      obtain ⟨k', v'⟩ := hd
      simp only [alistKeys, List.map_cons, List.mem_cons] at h
      push_neg at h
      have h2 : ¬ k' = k := fun hc => h.1 hc.symm
      have h3 := ih h.2
      simp only [alistKeys] at h3
      simp only [alistInsert, if_neg h2, alistKeys, List.map_cons, h3, List.cons_append]

theorem alistKeys_insert_nodup {T : Type} {k : Comp} (v : PathNode T)
    {l : List (Comp × PathNode T)} (hnd : (alistKeys l).Nodup) :
    (alistKeys (alistInsert k v l)).Nodup := by
  by_cases h : k ∈ alistKeys l
  · rw [alistKeys_insert_mem v h]
    exact hnd
  · rw [alistKeys_insert_not_mem v h]
    simp [List.nodup_append, hnd, h]

theorem alistLookup_remove_ne {T : Type} {k k' : Comp}
    (l : List (Comp × PathNode T)) (h : k' ≠ k) :
    alistLookup k' (alistRemove k l).1 = alistLookup k' l := by
  induction l with
  | nil => simp [alistRemove]
  | cons hd tl ih =>
      obtain ⟨k'', v''⟩ := hd
      by_cases h2 : k'' = k
      · subst h2
        simp [alistRemove, alistLookup, Ne.symm h]
      · by_cases h3 : k'' = k'
        · simp [alistRemove, alistLookup, h2, h3, h]
        · simp [alistRemove, alistLookup, h2, h3, h, ih]

theorem alistLookup_remove_self {T : Type} {k : Comp}
    {l : List (Comp × PathNode T)} (hnd : (alistKeys l).Nodup) :
    alistLookup k (alistRemove k l).1 = none := by
  induction l with
  | nil => simp [alistRemove, alistLookup]
  | cons hd tl ih =>
      obtain ⟨k', v'⟩ := hd
      simp only [alistKeys, List.map_cons, List.nodup_cons] at hnd
      by_cases h2 : k' = k
      · subst h2
        simp only [alistRemove, if_pos rfl]
        rw [alistLookup_eq_none_iff]
        simp only [alistKeys]
        exact hnd.1
      · simp [alistRemove, alistLookup, h2, ih hnd.2]

theorem alistKeys_remove_sublist {T : Type} (k : Comp)
    (l : List (Comp × PathNode T)) :
    (alistKeys (alistRemove k l).1).Sublist (alistKeys l) := by
  induction l with
  | nil => simp [alistRemove]
  | cons hd tl ih =>
      obtain ⟨k', v'⟩ := hd
      by_cases h2 : k' = k
      · simp only [alistRemove, if_pos h2, alistKeys, List.map_cons]
        exact List.sublist_cons_self _ _
      · simp only [alistRemove, if_neg h2, alistKeys, List.map_cons]
        exact ih.cons₂ _

theorem alistKeys_remove_nodup {T : Type} (k : Comp)
    {l : List (Comp × PathNode T)} (hnd : (alistKeys l).Nodup) :
    (alistKeys (alistRemove k l).1).Nodup :=
  (alistKeys_remove_sublist k l).nodup hnd

theorem mem_pathsOf_iff {T : Type} {n : PathNode T} {q : List Comp} :
    q ∈ pathsOf n ↔
      q = [] ∨ ∃ k c q', (k, c) ∈ n.children ∧ q = k :: q' ∧ q' ∈ pathsOf c := by
  rw [pathsOf]
  simp only [List.mem_cons, List.mem_flatMap, List.mem_map, List.mem_attach,
    true_and, Subtype.exists, Prod.exists]
  tauto

theorem nil_mem_pathsOf {T : Type} (n : PathNode T) : [] ∈ pathsOf n := by
  rw [pathsOf]
  exact List.mem_cons_self _ _

theorem wfNode_iff {T : Type} {n : PathNode T} :
    wfNode n = true ↔
      (alistKeys n.children).Nodup ∧ ∀ k c, (k, c) ∈ n.children → wfNode c = true := by
  rw [wfNode]
  simp only [Bool.decide_and, Bool.and_eq_true, decide_eq_true_eq, List.all_eq_true,
    List.mem_attach, true_implies, Subtype.forall, Prod.forall]

theorem wfNode_child {T : Type} {n : PathNode T} {k : Comp} {c : PathNode T}
    (hwf : wfNode n = true) (h : alistLookup k n.children = some c) :
    wfNode c = true :=
  (wfNode_iff.mp hwf).2 k c (alistLookup_mem h)

theorem wfNode_nodup {T : Type} {n : PathNode T} (hwf : wfNode n = true) :
    (alistKeys n.children).Nodup :=
  (wfNode_iff.mp hwf).1

theorem wfNode_leaf {T : Type} (nm : Option Comp) (i : T) (d : Bool) :
    wfNode (PathNode.mk nm [] i d) = true := by
  rw [wfNode_iff]
  constructor
  · simp [PathNode.children, alistKeys]
  · intro k c h
    simp [PathNode.children] at h

/-- Membership in `pathsOf` phrased through `alistLookup`, valid under
well-formedness. -/
theorem mem_pathsOf_iff_lookup {T : Type} {n : PathNode T} {q : List Comp}
    (hwf : wfNode n = true) :
    q ∈ pathsOf n ↔
      q = [] ∨ ∃ k c q', alistLookup k n.children = some c ∧ q = k :: q' ∧
        q' ∈ pathsOf c := by
  rw [mem_pathsOf_iff]
  constructor
  · rintro (h | ⟨k, c, q', hmem, hqeq, hq'⟩)
    · exact Or.inl h
    · exact Or.inr ⟨k, c, q',
        (mem_iff_alistLookup_of_nodup (wfNode_nodup hwf)).mp hmem, hqeq, hq'⟩
  · rintro (h | ⟨k, c, q', hl, hqeq, hq'⟩)
    · exact Or.inl h
    · exact Or.inr ⟨k, c, q', alistLookup_mem hl, hqeq, hq'⟩

theorem PathNode.findNode_cons {T : Type} (n : PathNode T) (c : Comp)
    (rest : List Comp) :
    n.findNode (c :: rest) =
      match alistLookup c n.children with
      | some child => child.findNode rest
      | none => none := by
  obtain ⟨nm, ch, i, d⟩ := n
  rfl

/-- Full characterisation of `remove_node_rec` on a well-formed node
with a non-empty component list: it always succeeds, reports whether
the addressed node existed, removes exactly the subtree below the
addressed path, and leaves the node untouched when nothing was
found. -/
theorem PathNode.removeNodeRec_spec {T : Type} :
    ∀ (comps : List Comp) (n : PathNode T), comps ≠ [] → wfNode n = true →
    ∃ n' removed, n.removeNodeRec comps = some (n', removed) ∧
      removed = (n.findNode comps).isSome ∧
      wfNode n' = true ∧
      (∀ q, q ∈ pathsOf n' ↔ (q ∈ pathsOf n ∧ ¬ comps <+: q)) ∧
      ((n.findNode comps).isSome = false → n' = n) := by
  intro comps
  induction comps with
  | nil => intro n h; exact absurd rfl h
  | cons c rest ih =>
    intro n _ hwf
    obtain ⟨nm, ch, i, d⟩ := n
    have hnd : (alistKeys ch).Nodup := wfNode_nodup hwf
    cases rest with
    | nil =>
        refine ⟨PathNode.mk nm (alistRemove c ch).1 i d, (alistRemove c ch).2,
          rfl, ?_, ?_, ?_, ?_⟩
        · rw [PathNode.findNode_cons]
          simp only [PathNode.children]
          rw [alistRemove_snd]
          cases alistLookup c ch <;> simp [PathNode.findNode]
        · rw [wfNode_iff]
          refine ⟨by simpa [PathNode.children] using alistKeys_remove_nodup c hnd, ?_⟩
          intro k x hmem
          simp only [PathNode.children] at hmem
          have hl := (mem_iff_alistLookup_of_nodup (alistKeys_remove_nodup c hnd)).mp hmem
          by_cases hk : k = c
          · subst hk
            rw [alistLookup_remove_self hnd] at hl
            cases hl
          · rw [alistLookup_remove_ne ch hk] at hl
            exact (wfNode_iff.mp hwf).2 k x (alistLookup_mem hl)
        · intro q
          have hwf' : wfNode (PathNode.mk nm (alistRemove c ch).1 i d) = true := by
            rw [wfNode_iff]
            refine ⟨by simpa [PathNode.children] using alistKeys_remove_nodup c hnd, ?_⟩
            intro k x hmem
            simp only [PathNode.children] at hmem
            have hl := (mem_iff_alistLookup_of_nodup (alistKeys_remove_nodup c hnd)).mp hmem
            by_cases hk : k = c
            · subst hk
              rw [alistLookup_remove_self hnd] at hl
              cases hl
            · rw [alistLookup_remove_ne ch hk] at hl
              exact (wfNode_iff.mp hwf).2 k x (alistLookup_mem hl)
          rw [mem_pathsOf_iff_lookup hwf', mem_pathsOf_iff_lookup hwf]
          simp only [PathNode.children]
          constructor
          · rintro (hq | ⟨k, x, q', hl, hqeq, hq'⟩)
            · subst hq
              exact ⟨Or.inl rfl, by simp⟩
            · subst hqeq
              by_cases hk : k = c
              · subst hk
                rw [alistLookup_remove_self hnd] at hl
                cases hl
              · rw [alistLookup_remove_ne ch hk] at hl
                refine ⟨Or.inr ⟨k, x, q', hl, rfl, hq'⟩, ?_⟩
                intro hpre
                rcases List.cons_prefix_cons.mp hpre with ⟨hc, _⟩
                exact hk hc.symm
          · rintro ⟨hq | ⟨k, x, q', hl, hqeq, hq'⟩, hpre⟩
            · exact Or.inl hq
            · subst hqeq
              by_cases hk : k = c
              · subst hk
                exact absurd (List.cons_prefix_cons.mpr ⟨rfl, List.nil_prefix⟩) hpre
              · rw [← alistLookup_remove_ne ch hk] at hl
                exact Or.inr ⟨k, x, q', hl, rfl, hq'⟩
        · intro hfind
          rw [PathNode.findNode_cons] at hfind
          simp only [PathNode.children] at hfind
          cases hlu : alistLookup c ch with
          | some child => rw [hlu] at hfind; simp [PathNode.findNode] at hfind
          | none =>
              have := alistRemove_of_none (l := ch) hlu
              simp [this]
    | cons c' rest' =>
        cases hlu : alistLookup c ch with
        | none =>
            refine ⟨PathNode.mk nm ch i d, false, ?_, ?_, hwf, ?_, fun _ => rfl⟩
            · simp [PathNode.removeNodeRec, PathNode.children, hlu]
            · rw [PathNode.findNode_cons]
              simp [PathNode.children, hlu]
            · intro q
              constructor
              · intro hq
                refine ⟨hq, ?_⟩
                intro hpre
                rcases q with _ | ⟨k, q'⟩
                · simp at hpre
                · rcases List.cons_prefix_cons.mp hpre with ⟨hc, _⟩
                  subst hc
                  rcases (mem_pathsOf_iff_lookup hwf).mp hq with hq0 | ⟨k', x, q'', hl, hqeq, _⟩
                  · cases hq0
                  · injection hqeq with h1 _
                    subst h1
                    simp only [PathNode.children] at hl
                    rw [hlu] at hl
                    cases hl
              · exact fun h => h.1
        | some child =>
            have hwfc : wfNode child = true := wfNode_child hwf (by simpa [PathNode.children] using hlu)
            obtain ⟨child', removedc, hrec, hremoved, hwfc', hpaths, hunch⟩ :=
              ih child (by simp) hwfc
            have hstep : (PathNode.mk nm ch i d).removeNodeRec (c :: c' :: rest') =
                some (PathNode.mk nm (alistUpdate c child' ch) i d, removedc) := by
              simp [PathNode.removeNodeRec, hlu, hrec]
            have hfind : (PathNode.mk nm ch i d).findNode (c :: c' :: rest') =
                child.findNode (c' :: rest') := by
              rw [PathNode.findNode_cons]
              simp [PathNode.children, hlu]
            have hwfn' : wfNode (PathNode.mk nm (alistUpdate c child' ch) i d) = true := by
              rw [wfNode_iff]
              simp only [PathNode.children]
              refine ⟨by rw [alistKeys_update]; exact hnd, ?_⟩
              intro k x hmem
              have hndu : (alistKeys (alistUpdate c child' ch)).Nodup := by
                rw [alistKeys_update]; exact hnd
              have hl := (mem_iff_alistLookup_of_nodup hndu).mp hmem
              by_cases hk : k = c
              · subst hk
                rw [alistLookup_update_self child' hlu] at hl
                cases hl
                exact hwfc'
              · rw [alistLookup_update_ne child' ch hk] at hl
                exact (wfNode_iff.mp hwf).2 k x (alistLookup_mem hl)
            refine ⟨PathNode.mk nm (alistUpdate c child' ch) i d, removedc, hstep,
              by rw [hfind]; exact hremoved, hwfn', ?_, ?_⟩
            · intro q
              rw [mem_pathsOf_iff_lookup hwfn', mem_pathsOf_iff_lookup hwf]
              simp only [PathNode.children]
              constructor
              · rintro (hq | ⟨k, x, q', hl, hqeq, hq'⟩)
                · subst hq
                  exact ⟨Or.inl rfl, by simp⟩
                · subst hqeq
                  by_cases hk : k = c
                  · subst hk
                    rw [alistLookup_update_self child' hlu] at hl
                    injection hl with hl
                    subst hl
                    rcases (hpaths q').mp hq' with ⟨hq'2, hnpre⟩
                    refine ⟨Or.inr ⟨k, child, q', hlu, rfl, hq'2⟩, ?_⟩
                    intro hpre
                    exact hnpre (List.cons_prefix_cons.mp hpre).2
                  · rw [alistLookup_update_ne child' ch hk] at hl
                    refine ⟨Or.inr ⟨k, x, q', hl, rfl, hq'⟩, ?_⟩
                    intro hpre
                    exact hk (List.cons_prefix_cons.mp hpre).1.symm
              · rintro ⟨hq | ⟨k, x, q', hl, hqeq, hq'⟩, hpre⟩
                · exact Or.inl hq
                · subst hqeq
                  by_cases hk : k = c
                  · subst hk
                    rw [hlu] at hl
                    injection hl with hl
                    subst hl
                    refine Or.inr ⟨k, child', q', alistLookup_update_self child' hlu, rfl, ?_⟩
                    rw [hpaths q']
                    refine ⟨hq', ?_⟩
                    intro hpre'
                    exact hpre (List.cons_prefix_cons.mpr ⟨rfl, hpre'⟩)
                  · rw [← alistLookup_update_ne child' ch hk] at hl
                    exact Or.inr ⟨k, x, q', hl, rfl, hq'⟩
            · intro hnone
              rw [hfind] at hnone
              have := hunch hnone
              subst this
              rw [alistUpdate_self hlu]

theorem prefix_singleton {c : Comp} {q : List Comp} (h : q <+: [c]) :
    q = [] ∨ q = [c] := by
  rcases q with _ | ⟨k, q'⟩
  · exact Or.inl rfl
  · rcases List.cons_prefix_cons.mp h with ⟨hk, hq'⟩
    subst hk
    simp at hq'
    simp [hq']

/-- Full characterisation of `add_node_rec` when re-adding a path whose
terminal node already exists: the terminal node is replaced by a fresh
node carrying the new payload and `is_dir` and *no* children, every
other path survives, and the intermediate nodes along the way are
reused (name, payload, `is_dir` and child keys preserved). -/
theorem PathNode.addNodeRec_present_spec {T : Type} [Inhabited T] :
    ∀ (comps : List Comp) (n : PathNode T) (info : T) (isDir : Bool)
      (sub : PathNode T), comps ≠ [] → wfNode n = true →
      n.findNode comps = some sub →
    ∃ n', n.addNodeRec comps info isDir = some n' ∧
      wfNode n' = true ∧
      n'.findNode comps = some (PathNode.mk comps.getLast? [] info isDir) ∧
      (∀ q, q ∈ pathsOf n' ↔ (q ∈ pathsOf n ∧ ¬(comps <+: q ∧ q ≠ comps))) ∧
      n'.name = n.name ∧ n'.info = n.info ∧ n'.isDir = n.isDir ∧
      alistKeys n'.children = alistKeys n.children ∧
      (∀ q c0, q ≠ [] → q <+: comps → q ≠ comps → n.findNode q = some c0 →
        ∃ c', n'.findNode q = some c' ∧ c'.name = c0.name ∧ c'.info = c0.info ∧
          c'.isDir = c0.isDir ∧ alistKeys c'.children = alistKeys c0.children) := by
  intro comps
  induction comps with
  | nil => intro n info isDir sub h; exact absurd rfl h
  | cons c rest ih =>
    intro n info isDir sub _ hwf hfind
    obtain ⟨nm, ch, i, d⟩ := n
    have hnd : (alistKeys ch).Nodup := wfNode_nodup hwf
    cases rest with
    | nil =>
        have hlu : alistLookup c ch = some sub := by
          rw [PathNode.findNode_cons] at hfind
          simp only [PathNode.children] at hfind
          cases h : alistLookup c ch with
          | none => rw [h] at hfind; cases hfind
          | some x => rw [h] at hfind; simpa [PathNode.findNode] using hfind
        have hcm : c ∈ alistKeys ch := by
          rcases alistLookup_eq_none_iff (l := ch) (k := c) with ⟨_, h2⟩
          by_contra hc
          rw [h2 hc] at hlu
          cases hlu
        have hkeys : alistKeys (alistInsert c (PathNode.new (some c) info isDir) ch) =
            alistKeys ch := alistKeys_insert_mem _ hcm
        have hwfn' : wfNode (PathNode.mk nm
            (alistInsert c (PathNode.new (some c) info isDir) ch) i d) = true := by
          rw [wfNode_iff]
          simp only [PathNode.children]
          refine ⟨by rw [hkeys]; exact hnd, ?_⟩
          intro k x hmem
          have hndi : (alistKeys (alistInsert c (PathNode.new (some c) info isDir)
              ch)).Nodup := by rw [hkeys]; exact hnd
          have hl := (mem_iff_alistLookup_of_nodup hndi).mp hmem
          by_cases hk : k = c
          · subst hk
            rw [alistLookup_insert_self] at hl
            cases hl
            exact wfNode_leaf _ _ _
          · rw [alistLookup_insert_ne _ ch hk] at hl
            exact (wfNode_iff.mp hwf).2 k x (alistLookup_mem hl)
        refine ⟨PathNode.mk nm (alistInsert c (PathNode.new (some c) info isDir) ch) i d,
          by simp [PathNode.addNodeRec], hwfn', ?_, ?_, rfl, rfl, rfl, ?_, ?_⟩
        · rw [PathNode.findNode_cons]
          simp only [PathNode.children]
          rw [alistLookup_insert_self]
          simp [PathNode.findNode, PathNode.new]
        · intro q
          rw [mem_pathsOf_iff_lookup hwfn', mem_pathsOf_iff_lookup hwf]
          simp only [PathNode.children]
          constructor
          · rintro (hq | ⟨k, x, q', hl, hqeq, hq'⟩)
            · subst hq
              exact ⟨Or.inl rfl, by simp⟩
            · subst hqeq
              by_cases hk : k = c
              · subst hk
                rw [alistLookup_insert_self] at hl
                injection hl with hl
                subst hl
                rcases (mem_pathsOf_iff_lookup (wfNode_leaf (some k) info isDir)).mp hq'
                  with hq0 | ⟨k2, x2, q2, hl2, _, _⟩
                · subst hq0
                  refine ⟨Or.inr ⟨k, sub, [], hlu, rfl, nil_mem_pathsOf sub⟩, ?_⟩
                  rintro ⟨_, hne⟩
                  exact hne rfl
                · simp [PathNode.new, PathNode.children, alistLookup] at hl2
              · rw [alistLookup_insert_ne _ ch hk] at hl
                refine ⟨Or.inr ⟨k, x, q', hl, rfl, hq'⟩, ?_⟩
                rintro ⟨hpre, _⟩
                exact hk (List.cons_prefix_cons.mp hpre).1.symm
          · rintro ⟨hq | ⟨k, x, q', hl, hqeq, hq'⟩, hpre⟩
            · exact Or.inl hq
            · subst hqeq
              by_cases hk : k = c
              · subst hk
                have hq'nil : q' = [] := by
                  by_contra hc
                  exact hpre ⟨List.cons_prefix_cons.mpr ⟨rfl, List.nil_prefix⟩,
                    by simp [hc]⟩
                subst hq'nil
                exact Or.inr ⟨k, PathNode.new (some k) info isDir, [],
                  alistLookup_insert_self _ _ _, rfl,
                  nil_mem_pathsOf _⟩
              · rw [← alistLookup_insert_ne (PathNode.new (some c) info isDir) ch hk] at hl
                exact Or.inr ⟨k, x, q', hl, rfl, hq'⟩
        · simpa [PathNode.children] using hkeys
        · intro q c0 hqne hqpre hqne2 _
          rcases prefix_singleton hqpre with h | h
          · exact absurd h hqne
          · exact absurd h hqne2
    | cons c' rest' =>
        have hlu : ∃ child, alistLookup c ch = some child ∧
            child.findNode (c' :: rest') = some sub := by
          rw [PathNode.findNode_cons] at hfind
          simp only [PathNode.children] at hfind
          cases h : alistLookup c ch with
          | none => rw [h] at hfind; cases hfind
          | some x => rw [h] at hfind; exact ⟨x, rfl, hfind⟩
        obtain ⟨child, hlu, hfindc⟩ := hlu
        have hwfc : wfNode child = true :=
          wfNode_child hwf (by simpa [PathNode.children] using hlu)
        obtain ⟨child', hrec, hwfc', hfind', hpaths, hname, hinfo, hisdir, hkeysc, hmid⟩ :=
          ih child info isDir sub (by simp) hwfc hfindc
        have hstep : (PathNode.mk nm ch i d).addNodeRec (c :: c' :: rest') info isDir =
            some (PathNode.mk nm (alistUpdate c child' ch) i d) := by
          simp [PathNode.addNodeRec, hlu, hrec]
        have hwfn' : wfNode (PathNode.mk nm (alistUpdate c child' ch) i d) = true := by
          rw [wfNode_iff]
          simp only [PathNode.children]
          refine ⟨by rw [alistKeys_update]; exact hnd, ?_⟩
          intro k x hmem
          have hndu : (alistKeys (alistUpdate c child' ch)).Nodup := by
            rw [alistKeys_update]; exact hnd
          have hl := (mem_iff_alistLookup_of_nodup hndu).mp hmem
          by_cases hk : k = c
          · subst hk
            rw [alistLookup_update_self child' hlu] at hl
            cases hl
            exact hwfc'
          · rw [alistLookup_update_ne child' ch hk] at hl
            exact (wfNode_iff.mp hwf).2 k x (alistLookup_mem hl)
        refine ⟨PathNode.mk nm (alistUpdate c child' ch) i d, hstep, hwfn', ?_, ?_,
          rfl, rfl, rfl, by simpa [PathNode.children] using alistKeys_update c child' ch, ?_⟩
        · rw [PathNode.findNode_cons]
          simp only [PathNode.children]
          rw [alistLookup_update_self child' hlu]
          rw [List.getLast?_cons_cons]
          exact hfind'
        · intro q
          rw [mem_pathsOf_iff_lookup hwfn', mem_pathsOf_iff_lookup hwf]
          simp only [PathNode.children]
          constructor
          · rintro (hq | ⟨k, x, q', hl, hqeq, hq'⟩)
            · subst hq
              exact ⟨Or.inl rfl, by simp⟩
            · subst hqeq
              by_cases hk : k = c
              · subst hk
                rw [alistLookup_update_self child' hlu] at hl
                injection hl with hl
                subst hl
                rcases (hpaths q').mp hq' with ⟨hq'2, hnpre⟩
                refine ⟨Or.inr ⟨k, child, q', hlu, rfl, hq'2⟩, ?_⟩
                rintro ⟨hpre, hne⟩
                refine hnpre ⟨(List.cons_prefix_cons.mp hpre).2, ?_⟩
                intro hc
                subst hc
                exact hne rfl
              · rw [alistLookup_update_ne child' ch hk] at hl
                refine ⟨Or.inr ⟨k, x, q', hl, rfl, hq'⟩, ?_⟩
                rintro ⟨hpre, _⟩
                exact hk (List.cons_prefix_cons.mp hpre).1.symm
          · rintro ⟨hq | ⟨k, x, q', hl, hqeq, hq'⟩, hpre⟩
            · exact Or.inl hq
            · subst hqeq
              by_cases hk : k = c
              · subst hk
                rw [hlu] at hl
                injection hl with hl
                subst hl
                refine Or.inr ⟨k, child', q', alistLookup_update_self child' hlu, rfl, ?_⟩
                rw [hpaths q']
                refine ⟨hq', ?_⟩
                rintro ⟨hpre', hne'⟩
                exact hpre ⟨List.cons_prefix_cons.mpr ⟨rfl, hpre'⟩, by simp [hne']⟩
              · rw [← alistLookup_update_ne child' ch hk] at hl
                exact Or.inr ⟨k, x, q', hl, rfl, hq'⟩
        · intro q c0 hqne hqpre hqne2 hfindq
          rcases q with _ | ⟨k, q''⟩
          · exact absurd rfl hqne
          · rcases List.cons_prefix_cons.mp hqpre with ⟨hk, hq''pre⟩
            subst hk
            rw [PathNode.findNode_cons] at hfindq
            simp only [PathNode.children] at hfindq
            rw [hlu] at hfindq
            rcases q'' with _ | ⟨k2, q3⟩
            · simp [PathNode.findNode] at hfindq
              subst hfindq
              refine ⟨child', ?_, hname, hinfo, hisdir, hkeysc⟩
              rw [PathNode.findNode_cons]
              simp only [PathNode.children]
              rw [alistLookup_update_self child' hlu]
              simp [PathNode.findNode]
            · have hne3 : (k2 :: q3) ≠ (c' :: rest') := by
                intro hc
                apply hqne2
                rw [hc]
              obtain ⟨c'', hf, hn, hi, hd2, hk2⟩ :=
                hmid (k2 :: q3) c0 (by simp) hq''pre hne3 hfindq
              refine ⟨c'', ?_, hn, hi, hd2, hk2⟩
              rw [PathNode.findNode_cons]
              simp only [PathNode.children]
              rw [alistLookup_update_self child' hlu]
              exact hf

/-! ## Permission-codec lemmas -/

theorem land_mask12_eq_mod (m : Nat) : m &&& 0o7777 = m % 4096 := by
  have := Nat.and_pow_two_sub_one_eq_mod m 12
  norm_num at this
  simpa using this

theorem land_high_eq_zero {m : Nat} (hm : m < 4096) : m &&& 0xF000 = 0 := by
  apply Nat.eq_of_testBit_eq
  intro i
  simp only [Nat.testBit_land, Nat.zero_testBit, Bool.and_eq_false_iff]
  rcases Nat.lt_or_ge i 12 with h | h
  · right
    interval_cases i <;> decide
  · left
    exact Nat.testBit_lt_two_pow
      (lt_of_lt_of_le hm (Nat.pow_le_pow_right (by norm_num : 0 < 2) h))

theorem extract_bits_9 (m : Nat) : (m &&& 0o7000) >>> 9 = m / 512 % 8 := by
  have h1 : (m &&& 0o7000) >>> 9 = (m >>> 9) &&& 7 := by
    apply Nat.eq_of_testBit_eq
    intro i
    simp only [Nat.testBit_shiftRight, Nat.testBit_land]
    rw [show (3584 : Nat) = 7 <<< 9 by decide, Nat.testBit_shiftLeft]
    simp
  rw [h1, Nat.shiftRight_eq_div_pow,
    show (7 : Nat) = 2 ^ 3 - 1 by norm_num, Nat.and_pow_two_sub_one_eq_mod]

theorem extract_bits_6 (m : Nat) : (m &&& 0o700) >>> 6 = m / 64 % 8 := by
  have h1 : (m &&& 0o700) >>> 6 = (m >>> 6) &&& 7 := by
    apply Nat.eq_of_testBit_eq
    intro i
    simp only [Nat.testBit_shiftRight, Nat.testBit_land]
    rw [show (448 : Nat) = 7 <<< 6 by decide, Nat.testBit_shiftLeft]
    simp
  rw [h1, Nat.shiftRight_eq_div_pow,
    show (7 : Nat) = 2 ^ 3 - 1 by norm_num, Nat.and_pow_two_sub_one_eq_mod]

theorem extract_bits_3 (m : Nat) : (m &&& 0o70) >>> 3 = m / 8 % 8 := by
  have h1 : (m &&& 0o70) >>> 3 = (m >>> 3) &&& 7 := by
    apply Nat.eq_of_testBit_eq
    intro i
    simp only [Nat.testBit_shiftRight, Nat.testBit_land]
    rw [show (56 : Nat) = 7 <<< 3 by decide, Nat.testBit_shiftLeft]
    simp
  rw [h1, Nat.shiftRight_eq_div_pow,
    show (7 : Nat) = 2 ^ 3 - 1 by norm_num, Nat.and_pow_two_sub_one_eq_mod]

theorem extract_bits_0 (m : Nat) : m &&& 0o7 = m % 8 := by
  rw [show (7 : Nat) = 2 ^ 3 - 1 by norm_num, Nat.and_pow_two_sub_one_eq_mod]

theorem normalPermission_roundtrip {b : Nat} (hb : b < 8) :
    ∃ q, NormalPermission.fromU8 b = some q ∧ q.compose = b := by
  interval_cases b <;> exact ⟨_, rfl, rfl⟩

theorem specialPermission_roundtrip {b : Nat} (hb : b < 8) :
    ∃ q, SpecialPermission.fromU8 b = some q ∧ q.compose = b := by
  interval_cases b <;> exact ⟨_, rfl, rfl⟩

/-- Decompose-then-recompose is the identity on every 12-bit mode. -/
theorem fromU16_total_roundtrip {m : Nat} (hm : m < 4096) :
    ∃ p, FilePermission.fromU16 m = some p ∧ p.compose = m := by
  obtain ⟨qs, hqs, hqsc⟩ := specialPermission_roundtrip (Nat.mod_lt (m / 512) (by norm_num))
  obtain ⟨qu, hqu, hquc⟩ := normalPermission_roundtrip (Nat.mod_lt (m / 64) (by norm_num))
  obtain ⟨qg, hqg, hqgc⟩ := normalPermission_roundtrip (Nat.mod_lt (m / 8) (by norm_num))
  obtain ⟨qo, hqo, hqoc⟩ := normalPermission_roundtrip (Nat.mod_lt m (by norm_num))
  refine ⟨⟨qu, qg, qo, qs⟩, ?_, ?_⟩
  · rw [FilePermission.fromU16, if_pos (land_high_eq_zero hm)]
    simp only [extract_bits_9, extract_bits_6, extract_bits_3, extract_bits_0]
    rw [hqu, hqg, hqo, hqs]
  · simp only [FilePermission.compose, hqsc, hquc, hqgc, hqoc]
    omega

/-! ## Reader support lemmas -/

theorem statDeletableFile_not_panicked (fs : Fs) (p : FPath) :
    statDeletableFile fs p ≠ R.panicked ∧ statDeletableFile fs p ≠ R.fuelOut := by
  rw [statDeletableFile]
  cases fs.stat p with
  | ok m => simp
  | error e =>
      by_cases h : e = Errno.enoent ∨ e = Errno.eacces <;> simp [h]

theorem readDeletableFile_ne_panicked (fs : Fs) (p : FPath) :
    readDeletableFile fs p ≠ R.panicked := by
  rw [readDeletableFile]
  cases fs.openFile p with
  | error e =>
      by_cases h : e = Errno.enoent ∨ e = Errno.eacces ∨ e = Errno.eisdir <;> simp [h]
  | ok u =>
      cases u
      obtain ⟨h1, h2⟩ := statDeletableFile_not_panicked fs p
      cases hs : statDeletableFile fs p with
      | ok o =>
          cases o with
          | none => simp
          | some m =>
              cases fs.readFile p with
              | ok bytes => simp
              | error e =>
                  by_cases h : e = Errno.enoent ∨ e = Errno.eacces ∨ e = Errno.eisdir <;>
                    simp [h]
      | err e => simp
      | panicked => exact absurd hs h1
      | fuelOut => exact absurd hs h2

/-! ## Id-generator lemmas -/

theorem idGenState_eq (k : Nat) (hk : k < 2 ^ 32 - 1) : idGenState k = 1 + k := by
  induction k with
  | zero => rfl
  | succ n ih =>
      have hn : n < 2 ^ 32 - 1 := lt_trans (Nat.lt_succ_self n) hk
      rw [idGenState, nextId, ih hn]
      have : 1 + n + 1 < 2 ^ 32 := by omega
      simp only [Nat.mod_eq_of_lt this]
      omega

/-! ## Forest support lemmas -/

theorem stripRoot_ne_nil {T : Type} {t : PathTree T} {p : FPath} {comps : List Comp}
    (h : t.stripRoot p = some comps) : comps ≠ [] := by
  rw [PathTree.stripRoot] at h
  cases hr : t.rootPath with
  | none => rw [hr] at h; cases h
  | some rp =>
      rw [hr] at h
      dsimp only at h
      by_cases hpre : rp.isPrefixOf p
      · rw [if_pos hpre] at h
        injection h with h
        subst h
        have hle : rp.length ≤ p.length :=
          (List.isPrefixOf_iff_prefix.mp hpre).length_le
        intro hc
        have := congrArg List.length hc
        simp only [List.length_drop, List.length_cons, List.length_nil] at this
        omega
      · rw [if_neg hpre] at h
        cases h

theorem updateTree_self {T : Type} {f : PathForest T} {root : FPath} {t : PathTree T}
    (hnd : f.keys.Nodup) (h : f.lookupTree root = some t) :
    f.updateTree root t = f := by
  obtain ⟨trees⟩ := f
  simp only [PathForest.updateTree, PathForest.mk.injEq]
  simp only [PathForest.lookupTree] at h
  simp only [PathForest.keys] at hnd
  induction trees with
  | nil => rfl
  | cons hd tl ih =>
      obtain ⟨k, t'⟩ := hd
      simp only [List.map_cons, List.nodup_cons] at hnd
      by_cases hk : k = root
      · subst hk
        simp [List.find?] at h
        subst h
        simp only [List.map_cons, if_pos rfl]
        congr 1
        refine (List.map_congr_left ?_).trans (List.map_id _)
        intro kt hkt
        have hne : ¬ kt.1 = k := fun hc => hnd.1 (hc ▸ List.mem_map.mpr ⟨kt, hkt, rfl⟩)
        simp [hne]
      · simp only [List.find?] at h
        have hd2 : (decide (k = root)) = false := by simp [hk]
        rw [hd2] at h
        simp only [List.map_cons] at ih ⊢
        rw [if_neg hk]
        rw [ih hnd.2 h]

/-! ## DFS visitation lemmas -/

theorem addNewPaths_isSome {T : Type} [Inhabited T] (fs : Fs) :
    ∀ (ps : List FPath) (n : PathNode T), (∀ p ∈ ps, p ≠ []) →
    ∃ n2, n.addNewPaths fs ps = some n2 := by
  intro ps
  induction ps with
  | nil => intro n _; exact ⟨n, rfl⟩
  | cons p rest ih =>
      intro n h
      have hp : p ≠ [] := h p (List.mem_cons_self _ _)
      obtain ⟨nm, hnm⟩ := Option.isSome_iff_exists.mp (List.getLast?_isSome.mpr hp)
      rw [PathNode.addNewPaths, hnm]
      exact ih _ (fun q hq => h q (List.mem_cons_of_mem _ hq))

theorem addNewPaths_preserves_named {T : Type} [Inhabited T] (fs : Fs) :
    ∀ (ps : List FPath) (n n2 : PathNode T), n.addNewPaths fs ps = some n2 →
    ∀ nm, (∃ c, alistLookup nm n.children = some c ∧ c.name = some nm) →
    ∃ c, alistLookup nm n2.children = some c ∧ c.name = some nm := by
  intro ps
  induction ps with
  | nil =>
      intro n n2 h nm hc
      rw [PathNode.addNewPaths] at h
      injection h with h
      subst h
      exact hc
  | cons p rest ih =>
      intro n n2 h nm hc
      rw [PathNode.addNewPaths] at h
      cases hl : p.getLast? with
      | none => rw [hl] at h; cases h
      | some nm' =>
          rw [hl] at h
          refine ih _ n2 h nm ?_
          by_cases hk : nm' = nm
          · subst hk
            refine ⟨PathNode.new (some nm') default (fs.isDirB p), ?_, rfl⟩
            obtain ⟨nmx, chx, ix, dx⟩ := n
            exact alistLookup_insert_self _ _ _
          · obtain ⟨c, hc1, hc2⟩ := hc
            refine ⟨c, ?_, hc2⟩
            obtain ⟨nmx, chx, ix, dx⟩ := n
            simp only [PathNode.withChildren, PathNode.children] at hc1 ⊢
            rw [alistLookup_insert_ne _ _ (fun hcc => hk hcc.symm)]
            exact hc1

theorem addNewPaths_mem_named {T : Type} [Inhabited T] (fs : Fs) :
    ∀ (ps : List FPath) (n n2 : PathNode T), n.addNewPaths fs ps = some n2 →
    ∀ p ∈ ps, ∀ nm, p.getLast? = some nm →
    ∃ c, alistLookup nm n2.children = some c ∧ c.name = some nm := by
  intro ps
  induction ps with
  | nil => intro n n2 _ p hp; cases hp
  | cons p0 rest ih =>
      intro n n2 h p hp nm hnm
      rw [PathNode.addNewPaths] at h
      rcases List.mem_cons.mp hp with hp0 | hp0
      · subst hp0
        rw [hnm] at h
        refine addNewPaths_preserves_named fs rest _ n2 h nm ?_
        refine ⟨PathNode.new (some nm) default (fs.isDirB p), ?_, rfl⟩
        obtain ⟨nmx, chx, ix, dx⟩ := n
        exact alistLookup_insert_self _ _ _
      · cases hl : p0.getLast? with
        | none => rw [hl] at h; cases h
        | some nm0 =>
            rw [hl] at h
            exact ih _ n2 h p hp0 nm hnm

theorem dfsMutNode_ok_emits_self {T : Type} [Inhabited T] {fs : Fs}
    {func : Visitor T FPath}
    (hlog : ∀ q i, ∃ t es b, func q i = .ok (t, es, b) ∧ q ∈ es) :
    ∀ {fuel : Nat} {q : FPath} {c : PathNode T} {out},
    dfsMutNode fs func fuel q c = .ok out → q ∈ out.2.2 := by
  intro fuel q c out h
  cases fuel with
  | zero =>
      simp only [dfsMutNode] at h
      cases h
  | succ n =>
      obtain ⟨t, es, b, hfb, hq⟩ := hlog q (c.getDfsMutInfo q)
      rw [dfsMutNode, hfb] at h
      dsimp only at h
      cases b with
      | cont =>
          cases hdc : dfsChildren (dfsMutNode fs func n) q (c.withInfo t).children with
          | ok r =>
              rw [hdc] at h
              injection h with h
              subst h
              exact List.mem_append_left _ hq
          | err e => rw [hdc] at h; cases h
          | panicked => rw [hdc] at h; cases h
          | fuelOut => rw [hdc] at h; cases h
      | stop =>
          injection h with h
          subst h
          exact hq
      | delete =>
          injection h with h
          subst h
          exact hq
      | addAndContinue ps =>
          dsimp only at h
          cases hadd : (c.withInfo t).addNewPaths fs ps with
          | none => rw [hadd] at h; cases h
          | some c2 =>
              rw [hadd] at h
              dsimp only at h
              cases hdc : dfsChildren (dfsMutNode fs func n) q c2.children with
              | ok r =>
                  rw [hdc] at h
                  injection h with h
                  subst h
                  exact List.mem_append_left _ hq
              | err e => rw [hdc] at h; cases h
              | panicked => rw [hdc] at h; cases h
              | fuelOut => rw [hdc] at h; cases h
      | addAndStop ps =>
          dsimp only at h
          cases hadd : (c.withInfo t).addNewPaths fs ps with
          | none => rw [hadd] at h; cases h
          | some c2 =>
              rw [hadd] at h
              dsimp only at h
              injection h with h
              subst h
              exact hq

theorem dfsChildren_visits {T : Type}
    {visit : FPath → PathNode T → R (RecursiveBehaviour × PathNode T × List FPath)}
    (hv : ∀ q c out, visit q c = .ok out → q ∈ out.2.2) :
    ∀ (ch : List (Comp × PathNode T)) {q : FPath} {out},
    dfsChildren visit q ch = .ok out →
    ∀ k c, (k, c) ∈ ch → ∀ nm, c.name = some nm → (q ++ [nm]) ∈ out.2 := by
  intro ch
  induction ch with
  | nil => intro q out _ k c hmem; cases hmem
  | cons hd rest ih =>
      intro q out h k c hmem nm hnm
      obtain ⟨k0, c0⟩ := hd
      rw [dfsChildren] at h
      cases hn0 : c0.name with
      | none => rw [hn0] at h; cases h
      | some nm0 =>
          rw [hn0] at h
          dsimp only at h
          cases hrec : visit (q ++ [nm0]) c0 with
          | ok r0 =>
              rw [hrec] at h
              dsimp only at h
              cases hrest : dfsChildren visit q rest with
              | ok r1 =>
                  rw [hrest] at h
                  dsimp only at h
                  obtain ⟨rb0, c0', evs0⟩ := r0
                  obtain ⟨rest', evs1⟩ := r1
                  rcases List.mem_cons.mp hmem with hm | hm
                  · injection hm with hm1 hm2
                    subst hm1
                    subst hm2
                    rw [hn0] at hnm
                    injection hnm with hnm
                    subst hnm
                    have hself := hv _ _ _ hrec
                    cases rb0 with
                    | nothing =>
                        injection h with h
                        subst h
                        exact List.mem_append_left _ hself
                    | delete =>
                        injection h with h
                        subst h
                        exact List.mem_append_left _ hself
                  · have hrest2 := ih hrest k c hm nm hnm
                    cases rb0 with
                    | nothing =>
                        injection h with h
                        subst h
                        exact List.mem_append_right _ hrest2
                    | delete =>
                        injection h with h
                        subst h
                        exact List.mem_append_right _ hrest2
              | err e => rw [hrest] at h; cases h
              | panicked => rw [hrest] at h; cases h
              | fuelOut => rw [hrest] at h; cases h
          | err e => rw [hrec] at h; cases h
          | panicked => rw [hrec] at h; cases h
          | fuelOut => rw [hrec] at h; cases h

/-! ## Claims -/

/-- C1: the claim says every watch event carries an event id with ids
strictly increasing per process.  In the source, `WatchEvent` has no id
field at all (`main.rs` reads `event.id` and does not compile), so the
claim fails against the code; this theorem establishes the fragment
that the code does contain: `AtomicIdGenerator` hands out strictly
increasing ids (until the 32-bit wrap, which is never reached in
practice). -/
theorem c1_generator_ids_strictly_increasing (i j : Nat) (hij : i < j)
    (hj : j < 2 ^ 32 - 1) : emittedId i < emittedId j := by
  have h1 : emittedId i = idGenState i := rfl
  have h2 : emittedId j = idGenState j := rfl
  rw [h1, h2, idGenState_eq i (lt_trans hij hj), idGenState_eq j hj]
  omega

/-- Witness for C1 at a concrete pair of calls. -/
theorem c1_generator_ids_strictly_increasing_witness :
    emittedId 0 < emittedId 5 :=
  c1_generator_ids_strictly_increasing 0 5 (by norm_num) (by norm_num)

/-- C3: the claim says an immediate `poll()` after `add_directory(D, r)`
emits zero events.  On the filesystem `fsW` (directory `/w` holding one
file `/w/a`), `add_directory` itself emits nothing (first conjunct, the
`update_times` pass is silent), but the very first `poll()` emits
`Create(/w/a)` followed by `Written(/w/a)`: `strip_root` keeps the
root's own final component, so `add_path(root, root)` created a
spurious child `/w/w` under which the real entries were filed; the
initial `update_times` pass pruned that child (it does not exist on
disk), and the first poll re-discovers `/w/a` as if it were new. -/
theorem c3_first_poll_after_add_directory_emits_events :
    addDirectory fsW 10 PathForest.empty ["w"] true = .ok (forestAfterAddW, []) ∧
    pollForest fsW 10 forestAfterAddW =
      .ok (forestAfterPollW,
        [WatchEvent.mk ["w", "a"] .create, WatchEvent.mk ["w", "a"] .written]) :=
  ⟨rfl, rfl⟩

/-- C7: decomposing any 12-bit mode word and re-composing it by the
spec's informal inverse yields the word back; the decomposition's
assertions all pass. -/
theorem c7_permission_roundtrip (m : Nat) (hm : m ≤ 0o7777) :
    ∃ p, FilePermission.fromU16 m = some p ∧ p.compose = m :=
  fromU16_total_roundtrip (by omega)

/-- Witness for C7 at mode `0o4755`. -/
theorem c7_permission_roundtrip_witness :
    (0o4755 : Nat) ≤ 0o7777 ∧
      ∃ p, FilePermission.fromU16 0o4755 = some p ∧ p.compose = 0o4755 :=
  ⟨by norm_num, c7_permission_roundtrip 0o4755 (by norm_num)⟩

/-- C9: `ReadCommand::process` is panic-free for every filesystem state
and every command: the mode is masked with `0o7777` before the
conversion, so the assertions in the permission conversions are
unreachable, and the data path contains no assertion at all. -/
theorem c9_reader_process_never_panics (fs : Fs) (cmd : ReadCommand) :
    cmd.process fs ≠ R.panicked := by
  obtain ⟨p, kind, eid⟩ := cmd
  rw [ReadCommand.process]
  cases kind with
  | data =>
      dsimp only
      cases h : readDeletableFile fs p with
      | ok o => cases o <;> simp
      | err e => simp
      | panicked => exact absurd h (readDeletableFile_ne_panicked fs p)
      | fuelOut => simp
  | permission =>
      dsimp only
      cases h : statDeletableFile fs p with
      | ok o =>
          cases o with
          | none => simp
          | some st =>
              have hlt : st.mode &&& 0o7777 < 4096 := by
                rw [land_mask12_eq_mod]
                exact Nat.mod_lt _ (by norm_num)
              obtain ⟨fp, hfp, _⟩ := fromU16_total_roundtrip hlt
              dsimp only
              rw [hfp]
              simp
      | err e => simp
      | panicked => exact absurd h (statDeletableFile_not_panicked fs p).1
      | fuelOut => exact absurd h (statDeletableFile_not_panicked fs p).2

/-- C10: `PathForest::add_path` on a root that is not yet a key builds
the tree with `PathTree::new`, which asserts that the root path exists
on disk (and is a directory); when the root's directory does not exist
the call panics instead of creating the in-memory node. -/
theorem c10_add_path_missing_root_panics {T : Type} [Inhabited T] (fs : Fs)
    (f : PathForest T) (root p : FPath) (info : T) (isDir : Bool)
    (hkey : f.lookupTree root = none) (hex : fs.exists' root = false) :
    PathForest.addPath fs f root p info isDir = none := by
  rw [PathForest.addPath, hkey]
  dsimp only
  rw [PathTree.new, hex]
  simp

/-- Witness for C10: registering the absent directory `/x` panics. -/
theorem c10_add_path_missing_root_panics_witness :
    PathForest.addPath fsW (PathForest.empty (T := ModTimeInfo)) ["x"] ["x"]
      ⟨0, 0⟩ true = none :=
  c10_add_path_missing_root_panics fsW PathForest.empty ["x"] ["x"] ⟨0, 0⟩ true rfl rfl

/-- C2: at a file node that still exists as a regular file of the
recorded type, the poll visitor emits `Written(path)` when the freshly
stat-ed mtime is strictly greater than the prior snapshot's, otherwise
`Chmod(path)` when the fresh ctime is strictly greater, otherwise
nothing — and in all three cases it returns `Stop`. -/
theorem c2_file_node_event_trichotomy (fs : Fs) (p : FPath)
    (i : DfsMutInfo ModTimeInfo) (m : FsMeta) (hstat : fs.stat p = .ok m)
    (hkind : m.kind = FsKind.file) (hdir : i.isDir = false) :
    pollVisitor fs p i =
      .ok (⟨m.mtime, m.ctime⟩,
        (if i.info.mtime < m.mtime then [WatchEvent.mk p .written]
         else if i.info.ctime < m.ctime then [WatchEvent.mk p .chmod]
         else []),
        .stop) := by
  have hex : fs.exists' p = true := by simp [Fs.exists', hstat, Except.toOption]
  have hisdir : fs.isDirB p = false := by simp [Fs.isDirB, hstat, hkind]
  have hisfile : fs.isFileB p = true := by simp [Fs.isFileB, hstat, hkind]
  rw [pollVisitor]
  rw [if_neg (by simp [hex])]
  rw [if_neg (by simp [hisfile])]
  rw [if_neg (by simp [hisdir, hdir])]
  rw [ModTimeInfo.updateTimes, hstat]
  dsimp only
  rw [hdir]
  rw [if_neg (by simp)]
  rw [handleFile]
  by_cases h1 : i.info.mtime < m.mtime
  · rw [if_pos (by simp [ModTimeInfo.modifiedSince, h1]), if_pos h1]
  · rw [if_neg (by simp [ModTimeInfo.modifiedSince, h1]), if_neg h1]
    by_cases h2 : i.info.ctime < m.ctime
    · rw [if_pos (by simp [ModTimeInfo.changedSince, h2]), if_pos h2]
    · rw [if_neg (by simp [ModTimeInfo.changedSince, h2]), if_neg h2]

/-- Witness for C2: the file `/w/a` of `fsW` freshly written
(prior snapshot 1/1, fresh stat 5/5) yields exactly `Written`. -/
theorem c2_file_node_event_trichotomy_witness :
    fsW.stat ["w", "a"] = .ok ⟨.file, 0o100644, 5, 5⟩ ∧
    pollVisitor fsW ["w", "a"] ⟨[], ⟨1, 1⟩, false⟩ =
      .ok (⟨5, 5⟩, [WatchEvent.mk ["w", "a"] .written], .stop) := by
  refine ⟨rfl, ?_⟩
  have h := c2_file_node_event_trichotomy fsW ["w", "a"] ⟨[], ⟨1, 1⟩, false⟩
    ⟨.file, 0o100644, 5, 5⟩ rfl rfl rfl
  simpa using h

/-- C6 counterexample: on `fsC6` the directory `/d` exists but its
enumeration is denied (`read_dir` fails with `EACCES`); the poll
visitor prunes the node (returns the `Delete` directive) while
emitting *no* event at all — refuting the claim that the visitor
"emits Delete(path) and prunes the node" for a `PermissionDenied`
from `read_dir`. -/
theorem c6_counterexample :
    pollVisitor fsC6 ["d"] ⟨[], ⟨0, 0⟩, true⟩ = .ok (⟨7, 7⟩, [], .delete) := rfl

/-- C6 amended: (1) any `stat` failure at the existence check makes the
poll visitor emit `Delete(path)` and prune; (2) a `NotFound` or
`PermissionDenied` from `read_dir` prunes the node *without* emitting;
(3) any other `read_dir` errno is returned as an `Io` error;
(4) `ModTimeInfo::update_times` turns `ENOENT`/`EACCES` into the
`Delete` action and returns every other errno as a `NixError`;
(5) the reader's deletable stat returns `Delete` content for
`ENOENT`/`EACCES` and propagates every other errno; (6) an error
returned by a poll aborts `start_polling`, which returns it. -/
theorem c6_amended_error_policy :
    (∀ (fs : Fs) (p : FPath) (i : DfsMutInfo ModTimeInfo) (e : Errno),
      fs.stat p = .error e →
      pollVisitor fs p i = .ok (i.info, [WatchEvent.mk p .delete], .delete)) ∧
    (∀ (fs : Fs) (p : FPath) (i : DfsMutInfo ModTimeInfo) (m : FsMeta) (e : Errno),
      fs.stat p = .ok m → m.kind = FsKind.dir → i.isDir = true →
      fs.readDir p = .error e → (e = Errno.enoent ∨ e = Errno.eacces) →
      pollVisitor fs p i = .ok (⟨m.mtime, m.ctime⟩, [], .delete)) ∧
    (∀ (fs : Fs) (p : FPath) (i : DfsMutInfo ModTimeInfo) (m : FsMeta) (e : Errno),
      fs.stat p = .ok m → m.kind = FsKind.dir → i.isDir = true →
      fs.readDir p = .error e → ¬(e = Errno.enoent ∨ e = Errno.eacces) →
      pollVisitor fs p i = .error (.io e)) ∧
    (∀ (fs : Fs) (p : FPath) (i : ModTimeInfo) (e : Errno),
      fs.stat p = .error e →
      ((e = Errno.enoent ∨ e = Errno.eacces) →
        i.updateTimes fs p = .ok (i, .delete)) ∧
      (¬(e = Errno.enoent ∨ e = Errno.eacces) →
        i.updateTimes fs p = .error (.nix e))) ∧
    (∀ (fs : Fs) (p : FPath) (eid : Nat) (e : Errno),
      fs.stat p = .error e →
      ((e = Errno.enoent ∨ e = Errno.eacces) →
        statDeletableFile fs p = .ok none ∧
        ReadCommand.process fs ⟨p, .permission, eid⟩ = .ok ⟨.delete, eid⟩) ∧
      (¬(e = Errno.enoent ∨ e = Errno.eacces) →
        statDeletableFile fs p = .err (.nix e))) ∧
    (∀ (fs : Fs) (dfsFuel n : Nat) (f : PathForest ModTimeInfo) (e : TuxError),
      pollForest fs dfsFuel f = .err e →
      startPolling fs dfsFuel (n + 1) f = .err e) := by
  refine ⟨?_, ?_, ?_, ?_, ?_, ?_⟩
  · intro fs p i e herr
    rw [pollVisitor]
    rw [if_pos (by simp [Fs.exists', herr, Except.toOption])]
  · intro fs p i m e hstat hkind hdir hrd he
    have hex : fs.exists' p = true := by simp [Fs.exists', hstat, Except.toOption]
    have hisdir : fs.isDirB p = true := by simp [Fs.isDirB, hstat, hkind]
    rw [pollVisitor]
    rw [if_neg (by simp [hex])]
    rw [if_neg (by simp [hisdir])]
    rw [if_neg (by simp [hisdir, hdir])]
    rw [ModTimeInfo.updateTimes, hstat]
    dsimp only
    rw [hdir]
    rw [if_pos (by simp)]
    rw [handleDir, hrd]
    dsimp only
    rw [if_pos he]
  · intro fs p i m e hstat hkind hdir hrd he
    have hex : fs.exists' p = true := by simp [Fs.exists', hstat, Except.toOption]
    have hisdir : fs.isDirB p = true := by simp [Fs.isDirB, hstat, hkind]
    rw [pollVisitor]
    rw [if_neg (by simp [hex])]
    rw [if_neg (by simp [hisdir])]
    rw [if_neg (by simp [hisdir, hdir])]
    rw [ModTimeInfo.updateTimes, hstat]
    dsimp only
    rw [hdir]
    rw [if_pos (by simp)]
    rw [handleDir, hrd]
    dsimp only
    rw [if_neg he]
  · intro fs p i e herr
    constructor
    · intro he
      rw [ModTimeInfo.updateTimes, herr]
      dsimp only
      rw [if_pos he]
    · intro he
      rw [ModTimeInfo.updateTimes, herr]
      dsimp only
      rw [if_neg he]
  · intro fs p eid e herr
    constructor
    · intro he
      have hsd : statDeletableFile fs p = .ok none := by
        rw [statDeletableFile, herr]
        dsimp only
        rw [if_pos he]
      refine ⟨hsd, ?_⟩
      rw [ReadCommand.process]
      dsimp only
      rw [hsd]
    · intro he
      rw [statDeletableFile, herr]
      dsimp only
      rw [if_neg he]
  · intro fs dfsFuel n f e hpoll
    rw [startPolling, hpoll]

/-- Witness for C6 amended: each conjunct exercised on a concrete
filesystem. -/
theorem c6_amended_error_policy_witness :
    pollVisitor fsW ["x"] ⟨[], ⟨0, 0⟩, false⟩ =
      .ok (⟨0, 0⟩, [WatchEvent.mk ["x"] .delete], .delete) ∧
    pollVisitor fsC6 ["d"] ⟨[], ⟨0, 0⟩, true⟩ = .ok (⟨7, 7⟩, [], .delete) ∧
    pollVisitor fsC6b ["d"] ⟨[], ⟨0, 0⟩, true⟩ = .error (.io (.egeneric 5)) ∧
    ModTimeInfo.updateTimes fsW ["x"] ⟨0, 0⟩ = .ok (⟨0, 0⟩, .delete) ∧
    ModTimeInfo.updateTimes fsErr ["x"] ⟨0, 0⟩ = .error (.nix (.egeneric 5)) ∧
    statDeletableFile fsW ["x"] = .ok none ∧
    ReadCommand.process fsW ⟨["x"], .permission, 3⟩ = .ok ⟨.delete, 3⟩ ∧
    statDeletableFile fsErr ["x"] = .err (.nix (.egeneric 5)) ∧
    startPolling fsC6b 10 1 forest6 = .err (.io (.egeneric 5)) := by
  obtain ⟨h1, h2, h3, h4, h5, h6⟩ := c6_amended_error_policy
  refine ⟨h1 fsW ["x"] ⟨[], ⟨0, 0⟩, false⟩ .enoent rfl, ?_, ?_, ?_, ?_, ?_, ?_, ?_, ?_⟩
  · exact h2 fsC6 ["d"] ⟨[], ⟨0, 0⟩, true⟩ ⟨.dir, 0o40700, 7, 7⟩ .eacces rfl rfl rfl
      rfl (Or.inr rfl)
  · exact h3 fsC6b ["d"] ⟨[], ⟨0, 0⟩, true⟩ ⟨.dir, 0o40700, 7, 7⟩ (.egeneric 5) rfl
      rfl rfl rfl (by simp)
  · exact (h4 fsW ["x"] ⟨0, 0⟩ .enoent rfl).1 (Or.inl rfl)
  · exact (h4 fsErr ["x"] ⟨0, 0⟩ (.egeneric 5) rfl).2 (by simp)
  · exact ((h5 fsW ["x"] 3 .enoent rfl).1 (Or.inl rfl)).1
  · exact ((h5 fsW ["x"] 3 .enoent rfl).1 (Or.inl rfl)).2
  · exact (h5 fsErr ["x"] 3 (.egeneric 5) rfl).2 (by simp)
  · exact h6 fsC6b 10 0 forest6 (.io (.egeneric 5)) rfl

theorem wfNode_nodeC4 : wfNode nodeC4 = true := by
  rw [wfNode]
  rw [nodeC4]
  simp only [PathNode.children, List.attach_cons, List.attach_nil]
  norm_num [alistKeys, wfNode_leaf]
  rw [wfNode]
  simp [PathNode.children, alistKeys, wfNode_leaf]

theorem wfNode_treeC8 : wfNode treeC8.node = true := by
  rw [treeC8]
  rw [wfNode]
  simp only [PathNode.children, List.attach_cons, List.attach_nil]
  norm_num [alistKeys, wfNode_leaf]
  rw [wfNode]
  simp only [PathNode.children, List.attach_cons, List.attach_nil]
  norm_num [alistKeys, wfNode_leaf]

/-- C4 counterexample: the tree `r{a{b}}` stores the path `a/b`;
re-adding the already-present terminal path `a` replaces the `a` node
by a *fresh childless* node, so the descendant path `a/b` is gone —
the set of paths stored in the tree is *not* left unchanged. -/
theorem c4_counterexample :
    nodeC4.findNode ["a", "b"] = some (.mk (some "b") [] 3 false) ∧
    nodeC4.addNodeRec ["a"] 7 true =
      some (.mk (some "r") [("a", .mk (some "a") [] 7 true)] 1 true) ∧
    (PathNode.mk (some "r") [("a", PathNode.mk (some "a") [] 7 true)] 1 true).findNode
      ["a", "b"] = none :=
  ⟨rfl, rfl, rfl⟩

/-- C4 amended: re-adding an already-present terminal path overwrites
the node's payload and `is_dir` *and removes all of its descendants*
(the terminal node is replaced by a fresh childless node); every path
not strictly below the re-added one is preserved, and the intermediate
nodes along the path are reused rather than replaced (name, payload,
`is_dir` and child keys are all preserved). -/
theorem c4_amended_readd_replaces_terminal {T : Type} [Inhabited T]
    (comps : List Comp) (n : PathNode T) (info : T) (isDir : Bool)
    (sub : PathNode T) (hne : comps ≠ []) (hwf : wfNode n = true)
    (hfind : n.findNode comps = some sub) :
    ∃ n', n.addNodeRec comps info isDir = some n' ∧
      wfNode n' = true ∧
      n'.findNode comps = some (PathNode.mk comps.getLast? [] info isDir) ∧
      (∀ q, q ∈ pathsOf n' ↔ (q ∈ pathsOf n ∧ ¬(comps <+: q ∧ q ≠ comps))) ∧
      n'.name = n.name ∧ n'.info = n.info ∧ n'.isDir = n.isDir ∧
      alistKeys n'.children = alistKeys n.children ∧
      (∀ q c0, q ≠ [] → q <+: comps → q ≠ comps → n.findNode q = some c0 →
        ∃ c', n'.findNode q = some c' ∧ c'.name = c0.name ∧ c'.info = c0.info ∧
          c'.isDir = c0.isDir ∧ alistKeys c'.children = alistKeys c0.children) :=
  PathNode.addNodeRec_present_spec comps n info isDir sub hne hwf hfind

/-- Witness for C4 amended, re-adding `a` in the tree `r{a{b}}`. -/
theorem c4_amended_readd_replaces_terminal_witness :
    ∃ n', nodeC4.addNodeRec ["a"] 7 true = some n' ∧
      wfNode n' = true ∧
      n'.findNode ["a"] = some (PathNode.mk (["a"] : List Comp).getLast? [] 7 true) ∧
      (∀ q, q ∈ pathsOf n' ↔
        (q ∈ pathsOf nodeC4 ∧ ¬((["a"] : List Comp) <+: q ∧ q ≠ ["a"]))) ∧
      n'.name = nodeC4.name ∧ n'.info = nodeC4.info ∧ n'.isDir = nodeC4.isDir ∧
      alistKeys n'.children = alistKeys nodeC4.children ∧
      (∀ q c0, q ≠ [] → q <+: ["a"] → q ≠ ["a"] → nodeC4.findNode q = some c0 →
        ∃ c', n'.findNode q = some c' ∧ c'.name = c0.name ∧ c'.info = c0.info ∧
          c'.isDir = c0.isDir ∧ alistKeys c'.children = alistKeys c0.children) :=
  c4_amended_readd_replaces_terminal ["a"] nodeC4 7 true
    (.mk (some "a") [("b", .mk (some "b") [] 3 false)] 2 true)
    (by simp) wfNode_nodeC4 rfl

/-- C5 counterexample: a visitor that logs every path it is called on
and returns `AddAndContinue([/w/a])` at the root `/w`.  The traversal
log is `[/w, /w/a]`: the freshly added child *was* visited in the same
DFS pass, refuting "the newly added children are not visited in the
same DFS pass". -/
theorem c5_counterexample :
    dfsMutNode fsW func5 3 ["w"] node5 =
      .ok (.nothing, .mk (some "w") [("a", .mk (some "a") [] 0 false)] 0 true,
        [["w"], ["w", "a"]]) := rfl

/-- C5 amended: when the visitor returns `AddAndContinue(new_paths)` at
a node, a child keyed and named by each element's final component is
present afterwards (`add_new_paths` inserts it with `is_dir` read from
the filesystem, a later element with the same name overwriting an
earlier one), and the subsequent recursion descends into *all* current
children — the newly added ones included: whenever the traversal
returns successfully, the visitor has been invoked on every new
child's path. -/
theorem c5_amended_add_and_continue_visits_new_children {T : Type} [Inhabited T]
    (fs : Fs) (func : Visitor T FPath) (fuel : Nat) (currPath : FPath)
    (node : PathNode T) (t0 : T) (ps : List FPath)
    (hlog : ∀ q i, ∃ t es b, func q i = .ok (t, es, b) ∧ q ∈ es)
    (hroot : func currPath (node.getDfsMutInfo currPath) =
      .ok (t0, [currPath], .addAndContinue ps))
    (hps : ∀ p ∈ ps, p ≠ []) :
    ∃ node2, (node.withInfo t0).addNewPaths fs ps = some node2 ∧
      (∀ p ∈ ps, ∀ nm, p.getLast? = some nm →
        ∃ c, alistLookup nm node2.children = some c ∧ c.name = some nm) ∧
      (∀ out, dfsMutNode fs func fuel currPath node = .ok out →
        ∀ p ∈ ps, ∀ nm, p.getLast? = some nm → (currPath ++ [nm]) ∈ out.2.2) := by
  obtain ⟨node2, hadd⟩ := addNewPaths_isSome fs ps (node.withInfo t0) hps
  refine ⟨node2, hadd, addNewPaths_mem_named fs ps _ node2 hadd, ?_⟩
  intro out hout p hp nm hnm
  cases fuel with
  | zero =>
      simp only [dfsMutNode] at hout
      cases hout
  | succ n =>
      rw [dfsMutNode, hroot] at hout
      dsimp only at hout
      rw [hadd] at hout
      dsimp only at hout
      cases hdc : dfsChildren (dfsMutNode fs func n) currPath node2.children with
      | ok r =>
          rw [hdc] at hout
          injection hout with hout
          subst hout
          obtain ⟨c, hlk, hcn⟩ := addNewPaths_mem_named fs ps _ node2 hadd p hp nm hnm
          have hmem := alistLookup_mem hlk
          have hvis := dfsChildren_visits
            (fun q c out h => dfsMutNode_ok_emits_self hlog h)
            node2.children hdc nm c hmem nm hcn
          exact List.mem_append_right _ hvis
      | err e => rw [hdc] at hout; cases hout
      | panicked => rw [hdc] at hout; cases hout
      | fuelOut => rw [hdc] at hout; cases hout

/-- Witness for C5 amended with the logging visitor `func5` on the
childless root `node5`. -/
theorem c5_amended_add_and_continue_visits_new_children_witness :
    ∃ node2, (node5.withInfo 0).addNewPaths fsW [["w", "a"]] = some node2 ∧
      (∀ p ∈ [["w", "a"]], ∀ nm, List.getLast? p = some nm →
        ∃ c, alistLookup nm node2.children = some c ∧ c.name = some nm) ∧
      (∀ out, dfsMutNode fsW func5 3 ["w"] node5 = .ok out →
        ∀ p ∈ [["w", "a"]], ∀ nm, List.getLast? p = some nm →
          (["w"] ++ [nm]) ∈ out.2.2) := by
  refine c5_amended_add_and_continue_visits_new_children fsW func5 3 ["w"] node5 0
    [["w", "a"]] ?_ rfl (by simp)
  intro q i
  by_cases h : q = ["w"]
  · subst h
    exact ⟨0, [["w"]], _, rfl, by simp⟩
  · refine ⟨0, [q], .stop, ?_, by simp⟩
    rw [func5]
    rw [if_neg h]

/-- C8: under the claim's preconditions (the root is a registered key,
the path lies under the root, the maps are well-formed),
`remove_path(root, path)` always succeeds, removes exactly the subtree
rooted at the addressed node, and returns `true` iff a node was there;
when no node exists the forest is returned unchanged. -/
theorem c8_remove_path_removes_subtree {T : Type} (f : PathForest T)
    (root p : FPath) (t : PathTree T) (hlook : f.lookupTree root = some t)
    (hnd : f.keys.Nodup) (hwf : wfNode t.node = true) (comps : List Comp)
    (hcomps : t.stripRoot p = some comps) :
    ∃ node' removed,
      t.node.removeNodeRec comps = some (node', removed) ∧
      f.removePath root p = some (f.updateTree root ⟨t.parentPath, node'⟩, removed) ∧
      removed = (t.node.findNode comps).isSome ∧
      (∀ q, q ∈ pathsOf node' ↔ (q ∈ pathsOf t.node ∧ ¬ comps <+: q)) ∧
      (removed = false → f.removePath root p = some (f, false)) := by
  have hne := stripRoot_ne_nil hcomps
  obtain ⟨n', removed, hrem, hremeq, hwf', hpaths, hunch⟩ :=
    PathNode.removeNodeRec_spec comps t.node hne hwf
  have hforest : f.removePath root p =
      some (f.updateTree root ⟨t.parentPath, n'⟩, removed) := by
    rw [PathForest.removePath, hlook]
    dsimp only
    rw [PathTree.removePath, hcomps]
    dsimp only
    rw [hrem]
    rfl
  refine ⟨n', removed, hrem, hforest, hremeq, hpaths, ?_⟩
  intro hfalse
  have hnone : (t.node.findNode comps).isSome = false := by
    rw [← hremeq]
    exact hfalse
  have heq := hunch hnone
  subst heq
  rw [hforest, hfalse]
  have ht : (⟨t.parentPath, t.node⟩ : PathTree T) = t := rfl
  rw [ht, updateTree_self hnd hlook]

/-- Witness for C8: removing `/r/a` from the forest holding `treeC8`
(the node is present, so `true` is returned). -/
theorem c8_remove_path_removes_subtree_witness :
    ∃ node' removed,
      treeC8.node.removeNodeRec ["r", "a"] = some (node', removed) ∧
      forestC8.removePath ["r"] ["r", "a"] =
        some (forestC8.updateTree ["r"] ⟨treeC8.parentPath, node'⟩, removed) ∧
      removed = (treeC8.node.findNode ["r", "a"]).isSome ∧
      (∀ q, q ∈ pathsOf node' ↔ (q ∈ pathsOf treeC8.node ∧ ¬ ["r", "a"] <+: q)) ∧
      (removed = false → forestC8.removePath ["r"] ["r", "a"] = some (forestC8, false)) :=
  c8_remove_path_removes_subtree forestC8 ["r"] ["r", "a"] treeC8 rfl
    (by simp [PathForest.keys, forestC8]) wfNode_treeC8 ["r", "a"] rfl
